import Mathlib

/-
Verification of the caching and invalidation core of the ok_fds repository.

The Python modules under src/src/cache and src/src/utils are shallowly
embedded below:
  * cache_key.py           -> PyVal, JVal, canon, jsonDump, generate_cache_key
  * dependency_utils.py    -> DependencyTracker (edge-set encoding of the
                              adj / rev_adj dicts-of-sets), get_dependents
  * distributed_cache.py   -> DCState, dcGet, dcSet, dcDelete
  * cache_manager.py       -> CMState, cmGet, cmSet, cmDelete,
                              cmInvalidateKeys, memoCall (the cached decorator
                              wrapper run by a single uncontended task)
  * cache_invalidation.py  -> InvalidationStrategy, strategy_invalidate,
                              trigger_invalidation
  * request_registry (absent from the source tree; modelled from the spec)
                           -> the per-key coalescing lock of the CoState
                              transition system

All definitions are executable; machine-word arithmetic in SHA-256 is done
on Nat with explicit reduction modulo 2^32.
-/

set_option maxRecDepth 10000

namespace OkFds

/-! ### Python value trees (the encodable argument universe of cache_key.py)

PyVal models the Python values that generate_cache_key accepts: JSON-native
scalars, lists/tuples, string-keyed dicts, sets of ints (a Python set is
modelled by the list of its elements, in arbitrary order; sorted() in the
source requires mutually comparable elements, ints being the common case),
and numpy ndarrays carrying shape, dtype and their element data.
pandas DataFrames/Series are treated like ndarrays (descriptor only) and are
not modelled separately.  Unencodable Python objects raise TypeError in the
source and are outside this universe.  The mutual list types keep every
recursion structural. -/

mutual

inductive PyVal where
  | none
  | bool (b : Bool)
  | int (n : Int)
  | str (s : String)
  | list (xs : PyValList)
  | dict (entries : PyEntryList)
  | set (xs : List Int)
  | ndarray (shape : List Nat) (dtype : String) (data : List Int)

inductive PyValList where
  | nil
  | cons (hd : PyVal) (tl : PyValList)

inductive PyEntryList where
  | nil
  | cons (name : String) (val : PyVal) (tl : PyEntryList)

end

/-- True exactly for the Python None singleton (the source tests
result is not None). -/
def PyVal.isNone : PyVal → Bool
  | .none => true
  | _ => false

/-! ### JSON value trees produced by canonicalisation -/

mutual

inductive JVal where
  | null
  | bool (b : Bool)
  | int (n : Int)
  | str (s : String)
  | arr (xs : JArr)
  | obj (entries : JObj)

inductive JArr where
  | nil
  | cons (hd : JVal) (tl : JArr)

inductive JObj where
  | nil
  | cons (name : String) (val : JVal) (tl : JObj)

end

def listIntToJArr : List Int → JArr
  | [] => .nil
  | x :: xs => .cons (.int x) (listIntToJArr xs)

def listNatToJArr : List Nat → JArr
  | [] => .nil
  | x :: xs => .cons (.int (Int.ofNat x)) (listNatToJArr xs)

def listToJArr : List JVal → JArr
  | [] => .nil
  | x :: xs => .cons x (listToJArr xs)

/-! ### Code-point comparison used wherever the source sorts strings
(Python compares str by code points). -/

def codes (s : String) : List Nat := s.data.map Char.toNat

def lexLe : List Nat → List Nat → Bool
  | [], _ => true
  | _ :: _, [] => false
  | a :: as, b :: bs => if a < b then true else if b < a then false else lexLe as bs

def strLe (a b : String) : Bool := lexLe (codes a) (codes b)

/-- Insertion sort of ints ascending, modelling sorted() on a set of ints. -/
def intInsert (x : Int) : List Int → List Int
  | [] => [x]
  | y :: ys => if x ≤ y then x :: y :: ys else y :: intInsert x ys

def intSort : List Int → List Int
  | [] => []
  | x :: xs => intInsert x (intSort xs)

/-- Keeps a JSON object sorted by key, modelling sort_keys=True of
json.dumps. -/
def objInsert (k : String) (v : JVal) : JObj → JObj
  | .nil => .cons k v .nil
  | .cons k2 v2 tl =>
      if strLe k k2 then .cons k v (.cons k2 v2 tl) else .cons k2 v2 (objInsert k v tl)

def objSort : JObj → JObj
  | .nil => .nil
  | .cons k v tl => objInsert k v (objSort tl)

/-! ### Canonicalisation (_stable_json_serializer applied through json.dumps)

The default hook of json.dumps is called on every non-native value:
sets become sorted lists; ndarrays (and tabular values) are reduced to a
shape/dtype descriptor that drops the element data; native dicts/lists are
walked by json.dumps itself.  Functions are canonicalised to their qualified
name before this stage and are handled in generate_cache_key below. -/

mutual

def canon : PyVal → JVal
  | .none => .null
  | .bool b => .bool b
  | .int n => .int n
  | .str s => .str s
  | .list xs => .arr (canonList xs)
  | .dict es => .obj (canonEntries es)
  | .set xs => .arr (listIntToJArr (intSort xs))
  | .ndarray shape dtype _ =>
      .obj (.cons "__type__" (.str "numpy.ndarray")
             (.cons "shape" (.arr (listNatToJArr shape))
               (.cons "dtype" (.str dtype) .nil)))

def canonList : PyValList → JArr
  | .nil => .nil
  | .cons h t => .cons (canon h) (canonList t)

def canonEntries : PyEntryList → JObj
  | .nil => .nil
  | .cons k v t => .cons k (canon v) (canonEntries t)

end

/- Recursively sorts the keys of every object in a JSON tree; json.dumps
with sort_keys=True prints each object in sorted key order, which is the
same as sorting first and then printing. -/
mutual

def sortKeysJ : JVal → JVal
  | .obj es => .obj (objSort (sortKeysObj es))
  | .arr xs => .arr (sortKeysArr xs)
  | v => v

def sortKeysArr : JArr → JArr
  | .nil => .nil
  | .cons h t => .cons (sortKeysJ h) (sortKeysArr t)

def sortKeysObj : JObj → JObj
  | .nil => .nil
  | .cons k v t => .cons k (sortKeysJ v) (sortKeysObj t)

end

/-! ### JSON printing with separators so the output has no whitespace,
matching json.dumps(..., separators=(",", ":"), ensure_ascii default). -/

def hexDigit (n : Nat) : Char := Char.ofNat (if n < 10 then 48 + n else 87 + n)

def hex4 (n : Nat) : List Char :=
  [hexDigit (n / 4096 % 16), hexDigit (n / 256 % 16), hexDigit (n / 16 % 16), hexDigit (n % 16)]

/-- JSON string escaping as performed by json.dumps with ensure_ascii=True:
the two mandatory escapes, the short control escapes, and a u-escape
(surrogate pair above the BMP) for every other non-printable-ASCII
character. -/
def escapeChar (c : Char) : List Char :=
  let n := c.toNat
  if c = '"' then ['\\', '"']
  else if c = '\\' then ['\\', '\\']
  else if n = 10 then ['\\', 'n']
  else if n = 9 then ['\\', 't']
  else if n = 13 then ['\\', 'r']
  else if n = 8 then ['\\', 'b']
  else if n = 12 then ['\\', 'f']
  else if n < 32 then '\\' :: 'u' :: hex4 n
  else if n < 127 then [c]
  else if n < 65536 then '\\' :: 'u' :: hex4 n
  else
    '\\' :: 'u' :: hex4 ((n - 65536) / 1024 + 55296) ++ '\\' :: 'u' :: hex4 ((n - 65536) % 1024 + 56320)

def jsonQuote (s : String) : String :=
  "\"" ++ String.mk (s.data.map escapeChar).flatten ++ "\""

mutual

def dumpJ : JVal → String
  | .null => "null"
  | .bool true => "true"
  | .bool false => "false"
  | .int n => toString n
  | .str s => jsonQuote s
  | .arr xs => "[" ++ dumpArr xs ++ "]"
  | .obj es => "\x7b" ++ dumpObj es ++ "\x7d"

def dumpArr : JArr → String
  | .nil => ""
  | .cons h .nil => dumpJ h
  | .cons h (.cons h2 t) => dumpJ h ++ "," ++ dumpArr (.cons h2 t)

def dumpObj : JObj → String
  | .nil => ""
  | .cons k v .nil => jsonQuote k ++ ":" ++ dumpJ v
  | .cons k v (.cons k2 v2 t) => jsonQuote k ++ ":" ++ dumpJ v ++ "," ++ dumpObj (.cons k2 v2 t)

end

/-- json.dumps(value, default=_stable_json_serializer, sort_keys=True,
separators=(",", ":")) on an already canonicalised tree. -/
def jsonDump (v : JVal) : String := dumpJ (sortKeysJ v)

/-! ### UTF-8 and SHA-256 (hashlib.sha256(combined.encode("utf-8"))) -/

def utf8Char (c : Char) : List Nat :=
  let n := c.toNat
  if n < 128 then [n]
  else if n < 2048 then [192 + n / 64, 128 + n % 64]
  else if n < 65536 then [224 + n / 4096, 128 + n / 64 % 64, 128 + n % 64]
  else [240 + n / 262144, 128 + n / 4096 % 64, 128 + n / 64 % 64, 128 + n % 64]

def utf8Encode (s : String) : List Nat := (s.data.map utf8Char).flatten

def w32 : Nat := 4294967296

/-- Right rotation of a 32-bit word given as a Nat below 2^32. -/
def rotr32 (n x : Nat) : Nat := x / 2 ^ n + x % 2 ^ n * 2 ^ (32 - n)

def shaK : List Nat :=
  [1116352408, 1899447441, 3049323471, 3921009573, 961987163, 1508970993,
   2453635748, 2870763221, 3624381080, 310598401, 607225278, 1426881987,
   1925078388, 2162078206, 2614888103, 3248222580, 3835390401, 4022224774,
   264347078, 604807628, 770255983, 1249150122, 1555081692, 1996064986,
   2554220882, 2821834349, 2952996808, 3210313671, 3336571891, 3584528711,
   113926993, 338241895, 666307205, 773529912, 1294757372, 1396182291,
   1695183700, 1986661051, 2177026350, 2456956037, 2730485921, 2820302411,
   3259730800, 3345764771, 3516065817, 3600352804, 4094571909, 275423344,
   430227734, 506948616, 659060556, 883997877, 958139571, 1322822218,
   1537002063, 1747873779, 1955562222, 2024104815, 2227730452, 2361852424,
   2428436474, 2756734187, 3204031479, 3329325298]

def beBytes8 (n : Nat) : List Nat :=
  [n / 2 ^ 56 % 256, n / 2 ^ 48 % 256, n / 2 ^ 40 % 256, n / 2 ^ 32 % 256,
   n / 2 ^ 24 % 256, n / 2 ^ 16 % 256, n / 2 ^ 8 % 256, n % 256]

def sha256Pad (msg : List Nat) : List Nat :=
  let len := msg.length
  msg ++ 128 :: List.replicate ((55 + 64 - len % 64) % 64) 0 ++ beBytes8 (len * 8)

def bytesToWords : List Nat → List Nat
  | b0 :: b1 :: b2 :: b3 :: rest => (((b0 * 256 + b1) * 256 + b2) * 256 + b3) :: bytesToWords rest
  | _ => []

def extendLoop : Nat → List Nat → List Nat
  | 0, acc => acc
  | n + 1, acc =>
      let i := acc.length
      let x15 := acc.getD (i - 15) 0
      let x2 := acc.getD (i - 2) 0
      let s0 := rotr32 7 x15 ^^^ rotr32 18 x15 ^^^ x15 / 2 ^ 3
      let s1 := rotr32 17 x2 ^^^ rotr32 19 x2 ^^^ x2 / 2 ^ 10
      extendLoop n (acc ++ [(acc.getD (i - 16) 0 + s0 + acc.getD (i - 7) 0 + s1) % w32])

abbrev ShaState := Nat × Nat × Nat × Nat × Nat × Nat × Nat × Nat

def compressLoop : List (Nat × Nat) → ShaState → ShaState
  | [], st => st
  | (wi, ki) :: rest, (a, b, c, d, e, f, g, h) =>
      let bigS1 := rotr32 6 e ^^^ rotr32 11 e ^^^ rotr32 25 e
      let ch := e &&& f ^^^ (w32 - 1 - e) &&& g
      let temp1 := (h + bigS1 + ch + ki + wi) % w32
      let bigS0 := rotr32 2 a ^^^ rotr32 13 a ^^^ rotr32 22 a
      let maj := a &&& b ^^^ a &&& c ^^^ b &&& c
      let temp2 := (bigS0 + maj) % w32
      compressLoop rest ((temp1 + temp2) % w32, a, b, c, (d + temp1) % w32, e, f, g)

def processBlock (st : ShaState) (block : List Nat) : ShaState :=
  let w := extendLoop 48 (bytesToWords block)
  match st, compressLoop (w.zip shaK) st with
  | (a, b, c, d, e, f, g, h), (a2, b2, c2, d2, e2, f2, g2, h2) =>
      ((a + a2) % w32, (b + b2) % w32, (c + c2) % w32, (d + d2) % w32,
       (e + e2) % w32, (f + f2) % w32, (g + g2) % w32, (h + h2) % w32)

def shaBlocks : Nat → ShaState → List Nat → ShaState
  | 0, st, _ => st
  | _ + 1, st, [] => st
  | fuel + 1, st, bytes => shaBlocks fuel (processBlock st (bytes.take 64)) (bytes.drop 64)

def hex8 (n : Nat) : String :=
  String.mk
    [hexDigit (n / 16 ^ 7 % 16), hexDigit (n / 16 ^ 6 % 16), hexDigit (n / 16 ^ 5 % 16),
     hexDigit (n / 16 ^ 4 % 16), hexDigit (n / 16 ^ 3 % 16), hexDigit (n / 16 ^ 2 % 16),
     hexDigit (n / 16 % 16), hexDigit (n % 16)]

def sha256hex (msg : List Nat) : String :=
  let padded := sha256Pad msg
  match shaBlocks padded.length
      (1779033703, 3144134277, 1013904242, 2773480762,
       1359893119, 2600822924, 528734635, 1541459225)
      padded with
  | (a, b, c, d, e, f, g, h) =>
      hex8 a ++ hex8 b ++ hex8 c ++ hex8 d ++ hex8 e ++ hex8 f ++ hex8 g ++ hex8 h

def sha256OfString (s : String) : String := sha256hex (utf8Encode s)

/-! ### generate_cache_key (cache_key.py)

The func argument is modelled by its qualified-name string (the serializer
maps a function to module.qualname); None means no function part.  kwargs is
the insertion-ordered item list of a Python dict, so its names are distinct;
the source sorts the items by name before serialising (names are distinct,
so Python never compares the tuple values). -/

def kwLe (p q : String × PyVal) : Prop := strLe p.1 q.1 = true

instance : DecidableRel kwLe := fun p q => instDecidableEqBool (strLe p.1 q.1) true

/-- The strict version of the kwargs comparison, antisymmetric because
names with equal code sequences are equal strings. -/
def kwLt (p q : String × PyVal) : Prop := kwLe p q ∧ p.1 ≠ q.1

def sortKwItems (kwargs : List (String × PyVal)) : List (String × PyVal) :=
  List.insertionSort kwLe kwargs

def argsRepr (args : List PyVal) : String :=
  jsonDump (.arr (listToJArr (args.map canon)))

def kwargsRepr (kwargs : List (String × PyVal)) : String :=
  jsonDump (.arr (listToJArr ((sortKwItems kwargs).map
    (fun p => JVal.arr (.cons (.str p.1) (.cons (canon p.2) .nil))))))

def keyElements (func : Option String) (args : List PyVal) (kwargs : List (String × PyVal)) :
    List String :=
  (match func with
   | some f => [f]
   | none => []) ++ [argsRepr args, kwargsRepr kwargs]

def combinedRepr (func : Option String) (args : List PyVal) (kwargs : List (String × PyVal)) :
    String :=
  String.intercalate "|" (keyElements func args kwargs)

def generate_cache_key (func : Option String) (args : List PyVal)
    (kwargs : List (String × PyVal)) : String :=
  sha256OfString (combinedRepr func args kwargs)

/-! ### DependencyTracker (dependency_utils.py)

The source stores the graph as two defaultdict(set) maps:
adj (key -> keys it depends on) and rev_adj (key -> keys depending on it).
A dict-of-sets is encoded as the finite set of its edges:
b in adj[a] exactly when (a, b) is in the adj edge set.  Membership of a key
in a dict is membership in the image of the first components (the source
never leaves an entry with an empty set behind: add_dependencies returns
before touching the dicts when nothing is new, and set_dependencies and
remove_key delete entries that become empty). -/

structure DependencyTracker (α : Type) [DecidableEq α] where
  adj : Finset (α × α)
  rev_adj : Finset (α × α)

variable {α : Type} [DecidableEq α]

namespace DependencyTracker

def empty : DependencyTracker α := ⟨∅, ∅⟩

/-- The set self.adj[k] of the source (defaulting to empty). -/
def adjSet (t : DependencyTracker α) (k : α) : Finset α :=
  (t.adj.filter (fun p => p.1 = k)).image Prod.snd

/-- The set self.rev_adj[k] of the source (defaulting to empty). -/
def revSet (t : DependencyTracker α) (k : α) : Finset α :=
  (t.rev_adj.filter (fun p => p.1 = k)).image Prod.snd

def add_dependencies (t : DependencyTracker α) (dependent_key : α)
    (dependency_keys : Finset α) : DependencyTracker α :=
  if dependency_keys = ∅ then t
  else
    let current_dependencies := adjSet t dependent_key
    let new_dependencies := dependency_keys \ current_dependencies
    if new_dependencies = ∅ then t
    else
      { adj := t.adj ∪ new_dependencies.image (fun d => (dependent_key, d)),
        rev_adj := t.rev_adj ∪ new_dependencies.image (fun d => (d, dependent_key)) }

def set_dependencies (t : DependencyTracker α) (dependent_key : α)
    (dependency_keys : Finset α) : DependencyTracker α :=
  let old_dependencies := adjSet t dependent_key
  let adj1 := t.adj.filter (fun p => p.1 ≠ dependent_key) ∪
    dependency_keys.image (fun d => (dependent_key, d))
  let removed_deps := old_dependencies \ dependency_keys
  let rev1 := t.rev_adj \ removed_deps.image (fun r => (r, dependent_key))
  let added_deps := dependency_keys \ old_dependencies
  { adj := adj1, rev_adj := rev1 ∪ added_deps.image (fun a => (a, dependent_key)) }

def remove_key (t : DependencyTracker α) (key : α) : DependencyTracker α :=
  if key ∉ t.adj.image Prod.fst ∪ t.rev_adj.image Prod.fst then t
  else
    let dependencies := adjSet t key
    let adj1 := t.adj.filter (fun p => p.1 ≠ key)
    let rev1 := t.rev_adj \ dependencies.image (fun d => (d, key))
    let dependents := (rev1.filter (fun p => p.1 = key)).image Prod.snd
    let rev2 := rev1.filter (fun p => p.1 ≠ key)
    let adj2 := adj1 \ dependents.image (fun d => (d, key))
    ⟨adj2, rev2⟩

/-- Direct dependents of x read from a reverse edge set. -/
def revNbrs (r : Finset (α × α)) (x : α) : Finset α :=
  (r.filter (fun p => p.1 = x)).image Prod.snd

/-- The BFS loop of get_dependents.  The source dequeues one node at a
time and inserts its unvisited direct dependents into visited, dependents
and the queue; since only the resulting set matters the traversal is
modelled level by level, every queued node of a round being expanded in one
step.  The fuel argument bounds the number of rounds and is chosen large
enough by the caller (each productive round strictly grows visited inside
the finite node universe). -/
def bfsAux (r : Finset (α × α)) :
    Nat → Finset α → Finset α → Finset α → Finset α
  | 0, _, dependents, _ => dependents
  | fuel + 1, visited, dependents, frontier =>
      if frontier = ∅ then dependents
      else
        let fresh := frontier.biUnion (fun c => revNbrs r c) \ visited
        bfsAux r fuel (visited ∪ fresh) (dependents ∪ fresh) fresh

def get_dependents (t : DependencyTracker α) (key : α) : Finset α :=
  if key ∉ t.rev_adj.image Prod.fst ∪ t.adj.image Prod.fst then ∅
  else
    let direct_dependents := revSet t key
    bfsAux t.rev_adj ((t.rev_adj.image Prod.snd).card + 2)
      direct_dependents direct_dependents direct_dependents

def clear_all (_ : DependencyTracker α) : DependencyTracker α := ⟨∅, ∅⟩

/-- The invariant of the claim C6: forward and reverse edge sets are
mutually consistent. -/
def Consistent (t : DependencyTracker α) : Prop :=
  ∀ a b : α, (a, b) ∈ t.adj ↔ (b, a) ∈ t.rev_adj

end DependencyTracker

/-! ### DistributedCache (distributed_cache.py)

Tier contents are total maps with finite meaning; a tier raising on access
is modelled by its Fails flag (the source catches every tier exception,
logs it and continues).  Values are stored unserialised in the memory and
disk tiers and pickled in Redis; the pickle round trip is modelled as the
identity, so every tier map holds PyVal.  The TierErr list of an operation
collects the logged tier errors; the final Option component of dcSet is
what the coroutine returns to its caller. -/

inductive TierErr where
  | memory
  | serializer
  | redis
  | disk
deriving DecidableEq

structure DCState where
  memEnabled : Bool
  memFails : Bool
  mem : String → Option PyVal
  redisEnabled : Bool
  redisFails : Bool
  redis : String → Option PyVal
  diskEnabled : Bool
  diskFails : Bool
  disk : String → Option PyVal
  serFails : Bool

def storeUpd (f : String → Option PyVal) (k : String) (v : PyVal) : String → Option PyVal :=
  fun k2 => if k2 = k then some v else f k2

def storeDel (f : String → Option PyVal) (k : String) : String → Option PyVal :=
  fun k2 => if k2 = k then none else f k2

/-- The probe of one tier during get: a disabled tier is skipped and a
raising tier is caught and treated as a miss for that tier. -/
def tierProbe (enabled fails : Bool) (store : String → Option PyVal) (k : String) :
    Option PyVal :=
  if enabled && !fails then store k else none

/-- DistributedCache.get: probe memory, then Redis, then disk; on a hit in
a slower tier promote the value into the faster tiers (promotion failures
are caught and the value is still returned). -/
def dcGet (s : DCState) (key : String) : DCState × Option PyVal :=
  match tierProbe s.memEnabled s.memFails s.mem key with
  | some v => (s, some v)
  | none =>
    match tierProbe s.redisEnabled s.redisFails s.redis key with
    | some v =>
        ({s with mem := if s.memEnabled && !s.memFails then storeUpd s.mem key v else s.mem},
         some v)
    | none =>
      match tierProbe s.diskEnabled s.diskFails s.disk key with
      | some v =>
          ({s with
              mem := if s.memEnabled && !s.memFails then storeUpd s.mem key v else s.mem,
              redis := if s.redisEnabled && !s.redisFails then storeUpd s.redis key v else s.redis},
           some v)
      | none => (s, none)

/-- DistributedCache.set: write memory; serialise (on failure log and skip
Redis/disk); write Redis and disk.  Every tier error is caught and logged,
never raised, and the coroutine returns None: the final component is what
the caller receives. -/
def dcSet (s : DCState) (key : String) (v : PyVal) :
    DCState × List TierErr × Option (List TierErr) :=
  let memErr : List TierErr := if s.memEnabled && s.memFails then [.memory] else []
  let mem1 := if s.memEnabled && !s.memFails then storeUpd s.mem key v else s.mem
  if s.serFails then ({s with mem := mem1}, memErr ++ [.serializer], none)
  else
    let redisErr : List TierErr := if s.redisEnabled && s.redisFails then [.redis] else []
    let redis1 := if s.redisEnabled && !s.redisFails then storeUpd s.redis key v else s.redis
    let diskErr : List TierErr := if s.diskEnabled && s.diskFails then [.disk] else []
    let disk1 := if s.diskEnabled && !s.diskFails then storeUpd s.disk key v else s.disk
    ({s with mem := mem1, redis := redis1, disk := disk1},
     memErr ++ redisErr ++ diskErr, none)

/-- DistributedCache.delete: delete from every enabled tier; tier errors
are caught and logged. -/
def dcDelete (s : DCState) (key : String) : DCState :=
  { s with
      mem := if s.memEnabled && !s.memFails then storeDel s.mem key else s.mem,
      redis := if s.redisEnabled && !s.redisFails then storeDel s.redis key else s.redis,
      disk := if s.diskEnabled && !s.diskFails then storeDel s.disk key else s.disk }

/-- The tier configuration produced by DistributedCache() with the module
defaults: memory and disk enabled and healthy, Redis disabled because the
module sets REDIS_AVAILABLE = False, and empty stores. -/
def dcInit : DCState :=
  { memEnabled := true, memFails := false, mem := fun _ => none,
    redisEnabled := false, redisFails := false, redis := fun _ => none,
    diskEnabled := true, diskFails := false, disk := fun _ => none,
    serFails := false }

/-! ### CacheManager (cache_manager.py) -/

structure CMState where
  dc : DCState
  tracker : DependencyTracker String

/-- CacheManager.get: DistributedCache.get, a miss being returned as
None. -/
def cmGet (s : CMState) (key : String) : CMState × Option PyVal :=
  let (dc1, v) := dcGet s.dc key
  ({s with dc := dc1}, v)

/-- CacheManager.set: store in the tiers, then record the dependencies via
DependencyTracker.add_dependencies when a non-empty set is supplied
(if dependencies: is false for None and for an empty set). -/
def cmSet (s : CMState) (key : String) (value : PyVal)
    (dependencies : Option (Finset String)) : CMState :=
  let (dc1, _, _) := dcSet s.dc key value
  let tracker1 :=
    match dependencies with
    | some deps =>
        if deps = ∅ then s.tracker else s.tracker.add_dependencies key deps
    | none => s.tracker
  ⟨dc1, tracker1⟩

/-- CacheManager.delete: delete from all tiers and excise the key from the
dependency graph. -/
def cmDelete (s : CMState) (key : String) : CMState :=
  ⟨dcDelete s.dc key, s.tracker.remove_key key⟩

/-- CacheManager.invalidate_keys as it executes when awaited: delete every
key (the asyncio.gather of the per-key deletes is modelled by folding them
in enumeration order). -/
def cmInvalidateKeys (s : CMState) (keys : List String) : CMState :=
  if keys = [] then s else keys.foldl cmDelete s

def cmInit : CMState := ⟨dcInit, DependencyTracker.empty⟩

/-! ### CacheInvalidator (cache_invalidation.py) -/

inductive InvalidationStrategy where
  | depBased
  | timeBased
deriving DecidableEq

/-- BaseInvalidationStrategy.invalidate for the two concrete strategies:
DependencyBasedInvalidation returns the transitive dependents of the
trigger key united with the key itself; TimeBasedInvalidation returns the
empty placeholder set. -/
def strategy_invalidate (s : CMState) (strat : InvalidationStrategy)
    (trigger_info : String) : Finset String :=
  match strat with
  | .depBased => s.tracker.get_dependents trigger_info ∪ {trigger_info}
  | .timeBased => ∅

/-- CacheInvalidator.trigger_invalidation: run every strategy (an erroring
strategy would be logged and skipped) and union the results; when the union
is non-empty the source then evaluates
self._cache_manager.invalidate_keys(keys) without awaiting it, so the
coroutine is created and dropped and the cache and graph state is left
unchanged.  The pair returned is the unchanged state together with the
computed key set. -/
def trigger_invalidation (strategies : List InvalidationStrategy) (s : CMState)
    (trigger_info : String) : CMState × Finset String :=
  let keys_to_invalidate :=
    strategies.foldl (fun acc strat => acc ∪ strategy_invalidate s strat trigger_info) ∅
  (s, keys_to_invalidate)

/-! ### The cached decorator wrapper run to completion by one task
(async_wrapper of cache_manager.py).  The per-key lock is uncontended for a
single task, so acquiring it is a no-op; fnResult is the value computed by
the wrapped function and captured the dependency set collected by the
ambient DependencyContext while it ran.  The Bool of the result records
whether the wrapped function was executed. -/

def memoCall (s : CMState) (key : String) (fnResult : PyVal)
    (captured : Finset String) (track_dependencies : Bool) : CMState × PyVal × Bool :=
  let (s1, v1) := cmGet s key
  match v1 with
  | some v => (s1, v, false)
  | none =>
    let (s2, v2) := cmGet s1 key
    match v2 with
    | some v => (s2, v, false)
    | none =>
      let result := fnResult
      let dependencies : Option (Finset String) :=
        if track_dependencies then some captured else none
      if result.isNone then (s2, result, true)
      else (cmSet s2 key result dependencies, result, true)

/-! ### The coalescing transition system (async_wrapper under concurrency)

RequestRegistry is imported by cache_manager.py but its module is absent
from the source tree; the per-key lock is modelled from the spec: a map
from cache key to a mutex that exists while a computation for that key is
in flight, acquired by at most one task at a time, other same-key tasks
waiting until it is released.  The tiered store is abstracted to one
logical map (spec read-after-write consistency) because coalescing does not
depend on the tier structure.  Each task runs async_wrapper for its key:
check the cache, acquire the lock, re-check, run the function, store a
non-None result, release.  Any interleaving is a schedule: a list of task
indices, the chosen task performing its next atomic step (a blocked or
finished task does nothing). -/

inductive TPc (υ : Type) where
  | start
  | missed
  | acquired
  | ready
  | computed
  | stored
  | done (r : Option υ)

def TPc.isDone {υ : Type} : TPc υ → Bool
  | .done _ => true
  | _ => false

def TPc.isComputed {υ : Type} : TPc υ → Bool
  | .computed => true
  | _ => false

/-- Program points holding the per-key lock: from just after acquisition to
just before release. -/
def TPc.isHeld {υ : Type} : TPc υ → Bool
  | .acquired => true
  | .ready => true
  | .computed => true
  | .stored => true
  | _ => false

structure CoState (n : Nat) (κ υ : Type) where
  cache : κ → Option υ
  lock : κ → Option (Fin n)
  pcs : Fin n → TPc υ
  execs : κ → Nat

def initCo (n : Nat) (κ υ : Type) : CoState n κ υ :=
  ⟨fun _ => none, fun _ => none, fun _ => .start, fun _ => 0⟩

/-- One atomic step of task i: the await boundaries of async_wrapper.
start: first cache check; missed: acquire the per-key lock when free;
acquired: re-check after the lock; ready: execute the function (one step:
the executions counter of the key is bumped); computed: store the result
when it is not None; stored: release the lock and return the result. -/
def step {n : Nat} {κ υ : Type} [DecidableEq κ] (keyOf : Fin n → κ) (resOf : κ → Option υ)
    (s : CoState n κ υ) (i : Fin n) : CoState n κ υ :=
  let k := keyOf i
  let setPc := fun (pc : TPc υ) => fun j => if j = i then pc else s.pcs j
  match s.pcs i with
  | .start =>
    match s.cache k with
    | some v => {s with pcs := setPc (.done (some v))}
    | none => {s with pcs := setPc .missed}
  | .missed =>
    match s.lock k with
    | none =>
        {s with lock := fun k2 => if k2 = k then some i else s.lock k2,
                pcs := setPc .acquired}
    | some _ => s
  | .acquired =>
    match s.cache k with
    | some v =>
        {s with lock := fun k2 => if k2 = k then none else s.lock k2,
                pcs := setPc (.done (some v))}
    | none => {s with pcs := setPc .ready}
  | .ready =>
      {s with pcs := setPc .computed,
              execs := fun k2 => if k2 = k then s.execs k2 + 1 else s.execs k2}
  | .computed =>
    match resOf k with
    | some v =>
        {s with cache := fun k2 => if k2 = k then some v else s.cache k2,
                pcs := setPc .stored}
    | none => {s with pcs := setPc .stored}
  | .stored =>
      {s with lock := fun k2 => if k2 = k then none else s.lock k2,
              pcs := setPc (.done (resOf k))}
  | .done _ => s

def run {n : Nat} {κ υ : Type} [DecidableEq κ] (keyOf : Fin n → κ) (resOf : κ → Option υ)
    (sched : List (Fin n)) (s : CoState n κ υ) : CoState n κ υ :=
  sched.foldl (step keyOf resOf) s

/-- The inductive invariant of the coalescing system for a wrapped function
whose result is never None: a task between lock acquisition and release is
the registered holder of its key's lock and vice versa; a task about to
execute or store saw (and still sees) a miss; the cache holds at most the
function's value; the execution count of a key is one exactly when the
value is cached or an execution for the key is in flight, and zero
otherwise; a finished task carries the function's value, which is cached by
then, and a task between the store and the release already sees it
cached. -/
def CoInv {n : Nat} {κ υ : Type} [DecidableEq κ] (keyOf : Fin n → κ) (resOf : κ → Option υ)
    (s : CoState n κ υ) : Prop :=
  (∀ i, (s.pcs i).isHeld = true → s.lock (keyOf i) = some i) ∧
  (∀ k i, s.lock k = some i → keyOf i = k ∧ (s.pcs i).isHeld = true) ∧
  (∀ i, (s.pcs i = TPc.ready ∨ s.pcs i = TPc.computed) → s.cache (keyOf i) = none) ∧
  (∀ k, s.cache k = none ∨ s.cache k = resOf k) ∧
  (∀ k, s.execs k = (if (s.cache k).isSome then 1 else 0) +
      (if ∃ i, keyOf i = k ∧ (s.pcs i).isComputed = true then 1 else 0)) ∧
  (∀ i r, s.pcs i = TPc.done r → r = resOf (keyOf i)) ∧
  (∀ i r, s.pcs i = TPc.done r → (s.cache (keyOf i)).isSome = true) ∧
  (∀ i, s.pcs i = TPc.stored → (s.cache (keyOf i)).isSome = true)

/-- A concrete manager state used by the invalidation theorem: keys a and b
cached in the memory tier, and the graph recording that b depends on a. -/
def cmEx : CMState :=
  ⟨{dcInit with
      mem := fun k =>
        if k = "a" then some (.int 1) else if k = "b" then some (.int 2) else none},
   DependencyTracker.add_dependencies .empty "b" {"a"}⟩

/-! ## Theorems -/

theorem dcGet_miss (s : DCState) (k : String) (h : (dcGet s k).2 = none) :
    dcGet s k = (s, none) := by
  unfold dcGet at h ⊢
  split at h
  · simp at h
  · split at h
    · simp at h
    · split at h
      · simp at h
      · rfl

theorem cmGet_eq (s : CMState) (k : String) :
    cmGet s k = (⟨(dcGet s.dc k).1, s.tracker⟩, (dcGet s.dc k).2) := rfl

/-- C9 counterexample input and divergence: the wrapped function returns the
empty list; the code caches it (the source only refuses to cache None), so
the second identical call is a cache hit and does not re-execute, while the
claim demands that every empty/zero result is never stored and always
recomputed. -/
theorem c9_empty_list_is_cached :
    (memoCall cmInit "k" (.list .nil) ∅ true).2.2 = true ∧
    (memoCall cmInit "k" (.list .nil) ∅ true).1.dc.mem "k" = some (.list .nil) ∧
    (memoCall (memoCall cmInit "k" (.list .nil) ∅ true).1 "k" (.list .nil) ∅ true).2.2 =
      false := by
  exact ⟨rfl, rfl, rfl⟩

/-- C9 amended: only a None result is never cached.  When the wrapped
function computes None on a cache miss, nothing is stored, the caller
receives None, and a subsequent identical call misses again and re-executes
the function. -/
theorem c9_none_never_cached (s : CMState) (key : String) (captured : Finset String)
    (track : Bool) (h : (cmGet s key).2 = none) :
    (memoCall s key PyVal.none captured track).2.2 = true ∧
    (memoCall s key PyVal.none captured track).2.1 = PyVal.none ∧
    (memoCall s key PyVal.none captured track).1 = s ∧
    (memoCall (memoCall s key PyVal.none captured track).1 key PyVal.none captured
        track).2.2 = true := by
  have hdc : (dcGet s.dc key).2 = none := h
  have h1 : dcGet s.dc key = (s.dc, none) := dcGet_miss _ _ hdc
  have hcm : cmGet s key = (s, none) := by
    rw [cmGet_eq, h1]
  have hmain : memoCall s key PyVal.none captured track = (s, PyVal.none, true) := by
    unfold memoCall
    simp [hcm, PyVal.isNone]
  refine ⟨by rw [hmain], by rw [hmain], by rw [hmain], ?_⟩
  rw [hmain]
  unfold memoCall
  simp [hcm, PyVal.isNone]

/-- C9 witness: the amended theorem applied to the initial cache state. -/
theorem c9_none_never_cached_witness :
    (memoCall cmInit "w9" PyVal.none ∅ true).2.2 = true ∧
    (memoCall (memoCall cmInit "w9" PyVal.none ∅ true).1 "w9" PyVal.none ∅ true).2.2 =
      true := by
  have h := c9_none_never_cached cmInit "w9" ∅ true rfl
  exact ⟨h.1, h.2.2.2⟩

/-- C7 counterexample: tiers [memory (errors on set), disk (healthy)],
Redis disabled.  DistributedCache.set writes the healthy disk tier and logs
the memory error, but the caller receives no error at all (the coroutine
returns None), while the claim demands an aggregated error naming the
failing tier be reported to the caller. -/
theorem c7_set_reports_no_error :
    ((dcSet {dcInit with memFails := true} "k" (.int 1)).2.2 = none) ∧
    (dcSet {dcInit with memFails := true} "k" (.int 1)).2.1 = [.memory] ∧
    (dcSet {dcInit with memFails := true} "k" (.int 1)).1.disk "k" = some (.int 1) := by
  exact ⟨rfl, rfl, rfl⟩

/-- C7 amended: with memory failing and disk healthy (Redis disabled,
serialisation succeeding), set still writes the value to disk and logs
exactly the memory tier error, but returns no error to its caller. -/
theorem c7_partial_failure (mem0 redis0 disk0 : String → Option PyVal) (k : String)
    (v : PyVal) :
    (dcSet { memEnabled := true, memFails := true, mem := mem0,
             redisEnabled := false, redisFails := false, redis := redis0,
             diskEnabled := true, diskFails := false, disk := disk0,
             serFails := false } k v).2.2 = none ∧
    (dcSet { memEnabled := true, memFails := true, mem := mem0,
             redisEnabled := false, redisFails := false, redis := redis0,
             diskEnabled := true, diskFails := false, disk := disk0,
             serFails := false } k v).2.1 = [.memory] ∧
    (dcSet { memEnabled := true, memFails := true, mem := mem0,
             redisEnabled := false, redisFails := false, redis := redis0,
             diskEnabled := true, diskFails := false, disk := disk0,
             serFails := false } k v).1.disk k = some v ∧
    (dcSet { memEnabled := true, memFails := true, mem := mem0,
             redisEnabled := false, redisFails := false, redis := redis0,
             diskEnabled := true, diskFails := false, disk := disk0,
             serFails := false } k v).1.mem = mem0 := by
  refine ⟨rfl, rfl, ?_, rfl⟩
  simp [dcSet, storeUpd]

/-- C10: tier promotion on get.  First case: memory misses and healthy
Redis hits; the value is returned and written into memory.  Second case:
memory and Redis miss (or Redis is disabled) and disk hits; the value is
returned and written into memory, and into Redis when that tier is enabled
and healthy. -/
theorem c10_promotion :
    (∀ (s : DCState) (k : String) (v : PyVal),
      s.memEnabled = true → s.memFails = false → s.mem k = none →
      s.redisEnabled = true → s.redisFails = false → s.redis k = some v →
      (dcGet s k).2 = some v ∧ (dcGet s k).1.mem k = some v) ∧
    (∀ (s : DCState) (k : String) (v : PyVal),
      s.memEnabled = true → s.memFails = false → s.mem k = none →
      s.redisEnabled = true → s.redisFails = false → s.redis k = none →
      s.diskEnabled = true → s.diskFails = false → s.disk k = some v →
      (dcGet s k).2 = some v ∧ (dcGet s k).1.mem k = some v ∧
        (dcGet s k).1.redis k = some v) := by
  constructor
  · intro s k v hme hmf hmk hre hrf hrk
    unfold dcGet tierProbe
    simp [hme, hmf, hmk, hre, hrf, hrk, storeUpd]
  · intro s k v hme hmf hmk hre hrf hrk hde hdf hdk
    unfold dcGet tierProbe
    simp [hme, hmf, hmk, hre, hrf, hrk, hde, hdf, hdk, storeUpd]

theorem mem_adjSet {t : DependencyTracker α} {k x : α} :
    x ∈ t.adjSet k ↔ (k, x) ∈ t.adj := by
  simp only [DependencyTracker.adjSet, Finset.mem_image, Finset.mem_filter]
  constructor
  · rintro ⟨⟨a, b⟩, ⟨hp, rfl⟩, rfl⟩
    exact hp
  · intro hp
    exact ⟨(k, x), ⟨hp, rfl⟩, rfl⟩

theorem mem_revSet {t : DependencyTracker α} {k x : α} :
    x ∈ t.revSet k ↔ (k, x) ∈ t.rev_adj := by
  simp only [DependencyTracker.revSet, Finset.mem_image, Finset.mem_filter]
  constructor
  · rintro ⟨⟨a, b⟩, ⟨hp, rfl⟩, rfl⟩
    exact hp
  · intro hp
    exact ⟨(k, x), ⟨hp, rfl⟩, rfl⟩

theorem mem_revNbrs {r : Finset (α × α)} {k x : α} :
    x ∈ DependencyTracker.revNbrs r k ↔ (k, x) ∈ r := by
  simp only [DependencyTracker.revNbrs, Finset.mem_image, Finset.mem_filter]
  constructor
  · rintro ⟨⟨a, b⟩, ⟨hp, rfl⟩, rfl⟩
    exact hp
  · intro hp
    exact ⟨(k, x), ⟨hp, rfl⟩, rfl⟩

/-- add_dependencies merges: afterwards the forward set of the key is its
old forward set united with the added dependencies. -/
theorem adjSet_add_dependencies (t : DependencyTracker α) (k : α) (deps : Finset α) :
    (t.add_dependencies k deps).adjSet k = t.adjSet k ∪ deps := by
  unfold DependencyTracker.add_dependencies
  by_cases h0 : deps = ∅
  · simp [h0]
  · simp only [if_neg h0]
    by_cases h1 : deps \ t.adjSet k = ∅
    · rw [if_pos h1]
      have hsub : deps ⊆ t.adjSet k := Finset.sdiff_eq_empty_iff_subset.mp h1
      exact (Finset.union_eq_left.mpr hsub).symm
    · rw [if_neg h1]
      ext x
      constructor
      · intro hx
        rw [mem_adjSet] at hx
        rcases Finset.mem_union.mp hx with hp | himg
        · exact Finset.mem_union_left _ (mem_adjSet.mpr hp)
        · rcases Finset.mem_image.mp himg with ⟨d, hd, heq⟩
          have hdx : d = x := congrArg Prod.snd heq
          subst hdx
          exact Finset.mem_union_right _ (Finset.mem_sdiff.mp hd).1
      · intro hx
        rw [mem_adjSet]
        rcases Finset.mem_union.mp hx with hp | hd
        · exact Finset.mem_union_left _ (mem_adjSet.mp hp)
        · by_cases hcur : x ∈ t.adjSet k
          · exact Finset.mem_union_left _ (mem_adjSet.mp hcur)
          · exact Finset.mem_union_right _
              (Finset.mem_image.mpr ⟨x, Finset.mem_sdiff.mpr ⟨hd, hcur⟩, rfl⟩)

theorem mem_image_pairR {s : Finset α} {k a b : α} :
    (a, b) ∈ s.image (fun d => (k, d)) ↔ a = k ∧ b ∈ s := by
  constructor
  · intro h
    rcases Finset.mem_image.mp h with ⟨d, hd, heq⟩
    have h1 : k = a := congrArg Prod.fst heq
    have h2 : d = b := congrArg Prod.snd heq
    subst h1
    subst h2
    exact ⟨rfl, hd⟩
  · rintro ⟨rfl, hb⟩
    exact Finset.mem_image.mpr ⟨b, hb, rfl⟩

theorem mem_image_pairL {s : Finset α} {k a b : α} :
    (a, b) ∈ s.image (fun d => (d, k)) ↔ b = k ∧ a ∈ s := by
  constructor
  · intro h
    rcases Finset.mem_image.mp h with ⟨d, hd, heq⟩
    have h1 : d = a := congrArg Prod.fst heq
    have h2 : k = b := congrArg Prod.snd heq
    subst h1
    subst h2
    exact ⟨rfl, hd⟩
  · rintro ⟨rfl, ha⟩
    exact Finset.mem_image.mpr ⟨a, ha, rfl⟩

theorem revNbrs_subset_snd {r : Finset (α × α)} {c : α} :
    DependencyTracker.revNbrs r c ⊆ r.image Prod.snd := by
  intro y hy
  exact Finset.mem_image.mpr ⟨(c, y), mem_revNbrs.mp hy, rfl⟩

/-- The level-by-level BFS loop computes exactly the closure of the visited
set under reverse edges: starting from a frontier contained in the sound,
inward-closed-off-frontier visited set and with enough fuel, the result
contains the visited set, contains only keys transitively reachable from
the start key, and is closed under reverse edges. -/
theorem bfsAux_spec (r : Finset (α × α)) (key : α) :
    ∀ (fuel : Nat) (visited dependents frontier : Finset α),
      dependents = visited →
      frontier ⊆ visited →
      visited ⊆ r.image Prod.snd →
      (∀ v ∈ visited, Relation.TransGen (fun x y => (x, y) ∈ r) key v) →
      (∀ v ∈ visited, v ∈ frontier ∨ DependencyTracker.revNbrs r v ⊆ visited) →
      (r.image Prod.snd \ visited).card + 2 ≤ fuel →
      visited ⊆ DependencyTracker.bfsAux r fuel visited dependents frontier ∧
      (∀ y ∈ DependencyTracker.bfsAux r fuel visited dependents frontier,
          Relation.TransGen (fun x y => (x, y) ∈ r) key y) ∧
      (∀ y ∈ DependencyTracker.bfsAux r fuel visited dependents frontier,
          DependencyTracker.revNbrs r y ⊆
            DependencyTracker.bfsAux r fuel visited dependents frontier) := by
  intro fuel
  induction fuel with
  | zero =>
      intro v d f _ _ _ _ _ hfuel
      exact absurd hfuel (by omega)
  | succ fuel ih =>
      intro v d f hdv hfv hvu hsound hinv hfuel
      simp only [DependencyTracker.bfsAux]
      by_cases hf : f = ∅
      · rw [if_pos hf]
        subst hdv
        refine ⟨subset_rfl, hsound, ?_⟩
        intro y hy w hw
        rcases hinv y hy with hyf | hcl
        · rw [hf] at hyf
          exact absurd hyf (Finset.not_mem_empty y)
        · exact hcl hw
      · rw [if_neg hf]
        by_cases hfe : f.biUnion (fun c => DependencyTracker.revNbrs r c) \ v = ∅
        · rw [hfe]
          simp only [Finset.union_empty]
          obtain ⟨m, rfl⟩ : ∃ m, fuel = m + 1 := ⟨fuel - 1, by omega⟩
          simp only [DependencyTracker.bfsAux, if_true]
          subst hdv
          refine ⟨subset_rfl, hsound, ?_⟩
          intro y hy w hw
          rcases hinv y hy with hyf | hcl
          · have hnfv : f.biUnion (fun c => DependencyTracker.revNbrs r c) ⊆ d := by
              rwa [Finset.sdiff_eq_empty_iff_subset] at hfe
            exact hnfv (Finset.mem_biUnion.mpr ⟨y, hyf, hw⟩)
          · exact hcl hw
        · have hnfu : f.biUnion (fun c => DependencyTracker.revNbrs r c) ⊆
              r.image Prod.snd := by
            intro y hy
            rcases Finset.mem_biUnion.mp hy with ⟨c, _, hyc⟩
            exact revNbrs_subset_snd hyc
          have hfsub : f.biUnion (fun c => DependencyTracker.revNbrs r c) \ v ⊆
              r.image Prod.snd \ v := by
            intro y hy
            rcases Finset.mem_sdiff.mp hy with ⟨hynf, hyv⟩
            exact Finset.mem_sdiff.mpr ⟨hnfu hynf, hyv⟩
          have hcard : (r.image Prod.snd \
              (v ∪ f.biUnion (fun c => DependencyTracker.revNbrs r c) \ v)).card + 2 ≤
              fuel := by
            have hunion : r.image Prod.snd \
                (v ∪ f.biUnion (fun c => DependencyTracker.revNbrs r c) \ v) =
                (r.image Prod.snd \ v) \
                  (f.biUnion (fun c => DependencyTracker.revNbrs r c) \ v) := by
              ext y
              simp only [Finset.mem_sdiff, Finset.mem_union]
              tauto
            have hpos : 1 ≤ (f.biUnion (fun c => DependencyTracker.revNbrs r c) \ v).card :=
              Finset.card_pos.mpr (Finset.nonempty_iff_ne_empty.mpr hfe)
            have hle := Finset.card_le_card hfsub
            rw [hunion, Finset.card_sdiff hfsub]
            omega
          have hres := ih
            (v ∪ f.biUnion (fun c => DependencyTracker.revNbrs r c) \ v)
            (d ∪ f.biUnion (fun c => DependencyTracker.revNbrs r c) \ v)
            (f.biUnion (fun c => DependencyTracker.revNbrs r c) \ v)
            (by rw [hdv]) Finset.subset_union_right
            (Finset.union_subset hvu (subset_trans Finset.sdiff_subset hnfu))
            (by
              intro w hw
              rcases Finset.mem_union.mp hw with hwv | hwf
              · exact hsound w hwv
              · rcases Finset.mem_biUnion.mp (Finset.mem_sdiff.mp hwf).1 with ⟨c, hcf, hwc⟩
                exact Relation.TransGen.tail (hsound c (hfv hcf)) (mem_revNbrs.mp hwc))
            (by
              intro w hw
              rcases Finset.mem_union.mp hw with hwv | hwf
              · rcases hinv w hwv with hwf2 | hcl
                · right
                  intro y hy
                  have hynf : y ∈ f.biUnion (fun c => DependencyTracker.revNbrs r c) :=
                    Finset.mem_biUnion.mpr ⟨w, hwf2, hy⟩
                  by_cases hyv : y ∈ v
                  · exact Finset.mem_union_left _ hyv
                  · exact Finset.mem_union_right _ (Finset.mem_sdiff.mpr ⟨hynf, hyv⟩)
                · right
                  exact fun y hy => Finset.mem_union_left _ (hcl hy)
              · left
                exact hwf)
            hcard
          exact ⟨subset_trans Finset.subset_union_left hres.1, hres.2.1, hres.2.2⟩

omit [DecidableEq α] in
theorem transGen_first_edge {r : α → α → Prop} {a b : α} (h : Relation.TransGen r a b) :
    ∃ c, r a c := by
  induction h with
  | single h => exact ⟨_, h⟩
  | tail _ _ ih => exact ih

/-- C5 amended: get_dependents returns exactly the keys reachable from the
looked-up key by one or more reverse (dependent-of) edges.  On acyclic
graphs this excludes the key itself, but when the key lies on a dependency
cycle the key is reachable from itself and is included; the result is empty
when the key is untracked or has no dependents, and the traversal
terminates because the visited guard lets it expand each node at most
once. -/
theorem c5_get_dependents_reachability (t : DependencyTracker α) (key y : α) :
    y ∈ t.get_dependents key ↔
      Relation.TransGen (fun a b => (a, b) ∈ t.rev_adj) key y := by
  simp only [DependencyTracker.get_dependents]
  by_cases hdom : key ∉ t.rev_adj.image Prod.fst ∪ t.adj.image Prod.fst
  · rw [if_pos hdom]
    simp only [Finset.not_mem_empty, false_iff]
    intro h
    rcases transGen_first_edge h with ⟨c, hc⟩
    exact hdom (Finset.mem_union_left _ (Finset.mem_image.mpr ⟨(key, c), hc, rfl⟩))
  · rw [if_neg hdom]
    obtain ⟨hsub, hsound, hclosed⟩ := bfsAux_spec t.rev_adj key
      ((t.rev_adj.image Prod.snd).card + 2)
      (t.revSet key) (t.revSet key) (t.revSet key) rfl subset_rfl
      (by
        intro x hx
        exact Finset.mem_image.mpr ⟨(key, x), mem_revSet.mp hx, rfl⟩)
      (fun x hx => Relation.TransGen.single (mem_revSet.mp hx))
      (fun x hx => Or.inl hx)
      (by
        have h := Finset.card_le_card
          (Finset.sdiff_subset (s := t.rev_adj.image Prod.snd) (t := t.revSet key))
        omega)
    constructor
    · exact fun hy => hsound y hy
    · intro h
      induction h with
      | single hkd => exact hsub (mem_revSet.mpr hkd)
      | tail _ hE ih => exact hclosed _ ih (mem_revNbrs.mpr hE)

/-- C5 counterexample input: keys 0 and 1 depend on each other (a two-node
cycle).  The BFS reaches 0 from its dependent 1, so get_dependents of 0
contains 0 itself, while the claim requires the result to exclude the
looked-up key. -/
theorem c5_cycle_key_in_own_dependents :
    0 ∈ DependencyTracker.get_dependents
      (DependencyTracker.add_dependencies
        (DependencyTracker.add_dependencies (.empty : DependencyTracker Nat) 0 {1}) 1 {0})
      0 := by
  decide

theorem add_dependencies_consistent (t : DependencyTracker α) (k : α) (deps : Finset α)
    (hC : t.Consistent) : (t.add_dependencies k deps).Consistent := by
  intro a b
  unfold DependencyTracker.add_dependencies
  by_cases h0 : deps = ∅
  · simpa [h0] using hC a b
  · simp only [if_neg h0]
    by_cases h1 : deps \ t.adjSet k = ∅
    · simpa [h1] using hC a b
    · simp only [if_neg h1, Finset.mem_union, mem_image_pairR, mem_image_pairL]
      exact or_congr (hC a b) (by tauto)

theorem set_dependencies_consistent (t : DependencyTracker α) (k : α) (deps : Finset α)
    (hC : t.Consistent) : (t.set_dependencies k deps).Consistent := by
  intro a b
  have h1 := hC a b
  have h2 := hC k b
  simp only [DependencyTracker.set_dependencies, Finset.mem_union, Finset.mem_filter,
    Finset.mem_sdiff, mem_image_pairR, mem_image_pairL, mem_adjSet]
  by_cases haK : a = k
  · subst haK
    simp only [ne_eq, not_true_eq_false, and_false, false_and, false_or, true_and,
      not_false_eq_true, and_true]
    tauto
  · simp only [ne_eq, haK, not_false_eq_true, and_true, false_and, and_false, or_false,
      not_true_eq_false]
    tauto

theorem mem_sndImage_filterFst {r : Finset (α × α)} {k x : α} :
    x ∈ (Finset.filter (fun p => p.1 = k) r).image Prod.snd ↔ (k, x) ∈ r := by
  constructor
  · intro h
    rcases Finset.mem_image.mp h with ⟨⟨c, d⟩, hp, rfl⟩
    rcases Finset.mem_filter.mp hp with ⟨hin, hfst⟩
    have hc : c = k := hfst
    subst hc
    exact hin
  · intro h
    exact Finset.mem_image.mpr ⟨(k, x), Finset.mem_filter.mpr ⟨h, rfl⟩, rfl⟩

theorem remove_key_consistent (t : DependencyTracker α) (k : α) (hC : t.Consistent) :
    (t.remove_key k).Consistent := by
  intro a b
  unfold DependencyTracker.remove_key
  by_cases hdom : k ∉ t.adj.image Prod.fst ∪ t.rev_adj.image Prod.fst
  · simpa [hdom] using hC a b
  · rw [if_neg hdom]
    have h1 := hC a b
    have h2 := hC k b
    have h3 := hC a k
    have h4 := hC k k
    simp only [Finset.mem_sdiff, Finset.mem_filter, mem_image_pairL,
      mem_sndImage_filterFst, mem_adjSet]
    by_cases haK : a = k
    · subst haK
      by_cases hbK : b = a
      · subst hbK
        tauto
      · tauto
    · by_cases hbK : b = k
      · subst hbK
        tauto
      · tauto

/-- C6: every mutating operation of the dependency graph preserves mutual
consistency of the forward and reverse edge sets: b is in a's forward set
exactly when a is in b's reverse set. -/
theorem c6_edge_consistency_preserved :
    (∀ (t : DependencyTracker α) (k : α) (deps : Finset α), t.Consistent →
        (t.add_dependencies k deps).Consistent) ∧
    (∀ (t : DependencyTracker α) (k : α) (deps : Finset α), t.Consistent →
        (t.set_dependencies k deps).Consistent) ∧
    (∀ (t : DependencyTracker α) (k : α), t.Consistent → (t.remove_key k).Consistent) :=
  ⟨add_dependencies_consistent, set_dependencies_consistent, remove_key_consistent⟩

/-- C6 witness: the empty tracker is consistent and stays consistent after
an add_dependencies call. -/
theorem c6_edge_consistency_preserved_witness :
    DependencyTracker.Consistent
      (DependencyTracker.add_dependencies (.empty : DependencyTracker Nat) 0 {1}) := by
  exact c6_edge_consistency_preserved.1 .empty 0 {1}
    (fun a b => by simp [DependencyTracker.empty])

/-- C8 counterexample: the graph already records that key k depends on x;
a successful tracked memoized call for k captures only the set containing
y.  The claim requires the captured set to replace the forward set
wholesale, so x must be gone afterwards; the code merges
(CacheManager.set calls add_dependencies, not set_dependencies) and x
remains recorded next to y. -/
theorem c8_old_dependency_survives :
    "x" ∈ DependencyTracker.adjSet
      ((memoCall ⟨dcInit, DependencyTracker.add_dependencies .empty "k" {"x"}⟩
          "k" (.int 7) {"y"} true).1.tracker) "k" ∧
    "y" ∈ DependencyTracker.adjSet
      ((memoCall ⟨dcInit, DependencyTracker.add_dependencies .empty "k" {"x"}⟩
          "k" (.int 7) {"y"} true).1.tracker) "k" := by
  exact ⟨by decide, by decide⟩

/-- C8 amended: after a memoized computation for a key completes
successfully on a cache miss with dependency tracking enabled, the
recorded forward set is the union of the previously recorded forward set
and the captured set: the captured dependencies are merged in via
add_dependencies, so previously recorded dependencies survive. -/
theorem c8_dependencies_merged (s : CMState) (key : String) (res : PyVal)
    (captured : Finset String) (hmiss : (cmGet s key).2 = none)
    (hres : res.isNone = false) :
    DependencyTracker.adjSet ((memoCall s key res captured true).1.tracker) key =
      DependencyTracker.adjSet s.tracker key ∪ captured := by
  have h1 : dcGet s.dc key = (s.dc, none) := dcGet_miss _ _ hmiss
  have hcm : cmGet s key = (s, none) := by rw [cmGet_eq, h1]
  unfold memoCall
  simp only [hcm, hres, Bool.false_eq_true, if_false, if_true]
  by_cases hc : captured = ∅
  · simp [cmSet, hc]
  · simp [cmSet, hc, adjSet_add_dependencies]

/-- C8 witness: with a previous dependency on x and captured set
containing y, the forward set afterwards is the two-element union. -/
theorem c8_dependencies_merged_witness :
    DependencyTracker.adjSet
      ((memoCall ⟨dcInit, DependencyTracker.add_dependencies .empty "k8" {"x8"}⟩
          "k8" (.int 7) {"y8"} true).1.tracker) "k8" =
      DependencyTracker.adjSet
        (DependencyTracker.add_dependencies .empty "k8" {"x8"}) "k8" ∪ {"y8"} := by
  exact c8_dependencies_merged _ "k8" (.int 7) {"y8"} rfl rfl

/-- C1: the invalidation entry point computes the correct union of the
strategy results (here the dependents of a together with a itself), but the
source then calls the async CacheManager.invalidate_keys without awaiting
the coroutine, so nothing is deleted: both keys stay in the memory tier and
the graph edge survives.  Had the coroutine been awaited
(cmInvalidateKeys), both keys would have left the store and the graph. -/
theorem c1_trigger_invalidation_deletes_nothing :
    (trigger_invalidation [.depBased] cmEx "a").2 = {"b", "a"} ∧
    (trigger_invalidation [.depBased] cmEx "a").1.dc.mem "a" = some (.int 1) ∧
    (trigger_invalidation [.depBased] cmEx "a").1.dc.mem "b" = some (.int 2) ∧
    "a" ∈ DependencyTracker.adjSet (trigger_invalidation [.depBased] cmEx "a").1.tracker "b" ∧
    (cmInvalidateKeys cmEx ["a", "b"]).dc.mem "a" = none ∧
    (cmInvalidateKeys cmEx ["a", "b"]).dc.mem "b" = none ∧
    DependencyTracker.adjSet (cmInvalidateKeys cmEx ["a", "b"]).tracker "b" = ∅ := by
  exact ⟨by decide, rfl, rfl, by decide, rfl, rfl, by decide⟩

/-! ### Lemmas on the code-point order and kwargs sorting (claims C3, C4) -/

theorem lexLe_cons (a b : Nat) (as bs : List Nat) :
    lexLe (a :: as) (b :: bs) = true ↔ a < b ∨ (a = b ∧ lexLe as bs = true) := by
  by_cases h1 : a < b
  · simp [lexLe, h1]
  · by_cases h2 : b < a
    · simp only [lexLe, if_neg h1, if_pos h2]
      constructor
      · intro hF
        exact absurd hF (by simp)
      · rintro (h | ⟨rfl, _⟩)
        · exact absurd h h1
        · exact absurd h2 (lt_irrefl _)
    · have hab : a = b := by omega
      subst hab
      simp [lexLe, h1, h2]

theorem lexLe_total : ∀ (x y : List Nat), lexLe x y = true ∨ lexLe y x = true
  | [], _ => Or.inl rfl
  | _ :: _, [] => Or.inr rfl
  | a :: as, b :: bs => by
      rcases Nat.lt_trichotomy a b with h | h | h
      · left
        simp [lexLe, h]
      · subst h
        rcases lexLe_total as bs with h | h
        · left
          rw [lexLe_cons]
          exact Or.inr ⟨rfl, h⟩
        · right
          rw [lexLe_cons]
          exact Or.inr ⟨rfl, h⟩
      · right
        simp [lexLe, h]

theorem lexLe_trans : ∀ {x y z : List Nat},
    lexLe x y = true → lexLe y z = true → lexLe x z = true
  | [], _, _, _, _ => rfl
  | _ :: _, [], _, h1, _ => by simp [lexLe] at h1
  | _ :: _, _ :: _, [], _, h2 => by simp [lexLe] at h2
  | a :: as, b :: bs, c :: cs, h1, h2 => by
      rw [lexLe_cons] at h1 h2 ⊢
      rcases h1 with h1 | ⟨rfl, h1⟩
      · rcases h2 with h2 | ⟨rfl, h2⟩
        · exact Or.inl (Nat.lt_trans h1 h2)
        · exact Or.inl h1
      · rcases h2 with h2 | ⟨rfl, h2⟩
        · exact Or.inl h2
        · exact Or.inr ⟨rfl, lexLe_trans h1 h2⟩

theorem lexLe_antisymm : ∀ {x y : List Nat},
    lexLe x y = true → lexLe y x = true → x = y
  | [], [], _, _ => rfl
  | [], _ :: _, _, h2 => by simp [lexLe] at h2
  | _ :: _, [], h1, _ => by simp [lexLe] at h1
  | a :: as, b :: bs, h1, h2 => by
      rw [lexLe_cons] at h1 h2
      rcases h1 with h1 | ⟨rfl, h1⟩
      · rcases h2 with h2 | ⟨heq, _⟩
        · exact absurd h2 (Nat.lt_asymm h1)
        · exact absurd h1 (by omega)
      · rcases h2 with h2 | ⟨_, h2⟩
        · exact absurd h2 (lt_irrefl _)
        · rw [lexLe_antisymm h1 h2]

theorem codes_inj {a b : String} (h : codes a = codes b) : a = b := by
  have hinj : Function.Injective Char.toNat := fun c d hcd => Char.ext (UInt32.toNat.inj hcd)
  have hdata : a.data = b.data := List.map_injective_iff.mpr hinj h
  cases a
  cases b
  exact congrArg String.mk hdata

instance : IsTotal (String × PyVal) kwLe :=
  ⟨fun p q => lexLe_total (codes p.1) (codes q.1)⟩

instance : IsTrans (String × PyVal) kwLe :=
  ⟨fun _ _ _ h1 h2 => lexLe_trans h1 h2⟩

instance : IsAntisymm (String × PyVal) kwLt :=
  ⟨fun _ _ h1 h2 => absurd (codes_inj (lexLe_antisymm h1.1 h2.1)) h1.2⟩

theorem sortKwItems_perm (l : List (String × PyVal)) : (sortKwItems l).Perm l :=
  List.perm_insertionSort kwLe l

theorem sortKwItems_sorted_lt (l : List (String × PyVal))
    (hnd : (l.map Prod.fst).Nodup) : List.Sorted kwLt (sortKwItems l) := by
  have hle : List.Sorted kwLe (sortKwItems l) := List.sorted_insertionSort kwLe l
  have hnd2 : ((sortKwItems l).map Prod.fst).Nodup :=
    (((sortKwItems_perm l).map Prod.fst).nodup_iff).mpr hnd
  have hne : List.Pairwise (fun p q : String × PyVal => p.1 ≠ q.1) (sortKwItems l) :=
    List.pairwise_map.mp hnd2
  exact hle.and hne

/-- Sorting the kwargs items is invariant under permutation when the names
are distinct (they are: kwargs is a Python dict). -/
theorem sortKwItems_perm_eq {l1 l2 : List (String × PyVal)} (hp : l1.Perm l2)
    (hnd : (l1.map Prod.fst).Nodup) : sortKwItems l1 = sortKwItems l2 := by
  have hnd2 : (l2.map Prod.fst).Nodup := ((hp.map Prod.fst).nodup_iff).mp hnd
  exact List.eq_of_perm_of_sorted
    ((sortKwItems_perm l1).trans (hp.trans (sortKwItems_perm l2).symm))
    (sortKwItems_sorted_lt l1 hnd) (sortKwItems_sorted_lt l2 hnd2)

/-- C3: generate_cache_key is a pure function (a Lean def, so identical
inputs give identical keys by definition); reordering keyword arguments
with their distinct dict names never changes the key, while reordering
positional arguments does change it (witnessed by swapping two ints, whose
SHA-256 digests are computed and differ). -/
theorem c3_key_stability :
    (∀ (func : Option String) (args : List PyVal) (kw1 kw2 : List (String × PyVal)),
        kw1.Perm kw2 → (kw1.map Prod.fst).Nodup →
        generate_cache_key func args kw1 = generate_cache_key func args kw2) ∧
    generate_cache_key .none [.int 1, .int 2] [] ≠
      generate_cache_key .none [.int 2, .int 1] [] := by
  constructor
  · intro func args kw1 kw2 hp hnd
    unfold generate_cache_key combinedRepr keyElements kwargsRepr
    rw [sortKwItems_perm_eq hp hnd]
  · decide

/-- C3 witness: swapped keyword items give the identical key. -/
theorem c3_key_stability_witness :
    generate_cache_key (some "f") [] [("b", .int 2), ("a", .int 1)] =
      generate_cache_key (some "f") [] [("a", .int 1), ("b", .int 2)] :=
  c3_key_stability.1 (some "f") [] _ _ (List.Perm.swap _ _ _) (by decide)

theorem combinedRepr_none (args : List PyVal) (kw : List (String × PyVal)) :
    combinedRepr .none args kw = argsRepr args ++ "|" ++ kwargsRepr kw := by
  simp [combinedRepr, keyElements, String.intercalate, String.intercalate.go]

theorem combinedRepr_some (f : String) (args : List PyVal) (kw : List (String × PyVal)) :
    combinedRepr (some f) args kw = f ++ "|" ++ argsRepr args ++ "|" ++ kwargsRepr kw := by
  simp [combinedRepr, keyElements, String.intercalate, String.intercalate.go,
    String.append_assoc]

theorem str_append_cancel_right {a b c : String} (h : a ++ c = b ++ c) : a = b := by
  have hd := congrArg String.data h
  rw [String.data_append, String.data_append] at hd
  have hab := List.append_cancel_right hd
  cases a
  cases b
  exact congrArg String.mk hab

theorem str_append_cancel_left {a b c : String} (h : a ++ b = a ++ c) : b = c := by
  have hd := congrArg String.data h
  rw [String.data_append, String.data_append] at hd
  have hbc := List.append_cancel_left hd
  cases b
  cases c
  exact congrArg String.mk hbc

/-- C4 counterexample: two ndarrays with equal shape and dtype but
different element data are different argument values, yet they receive the
same cache key, because the canonicaliser keys arrays by their descriptor
only. -/
theorem c4_ndarray_content_ignored :
    generate_cache_key .none [.ndarray [2] "int64" [1, 2]] [] =
      generate_cache_key .none [.ndarray [2] "int64" [3, 4]] [] ∧
    PyVal.ndarray [2] "int64" [1, 2] ≠ PyVal.ndarray [2] "int64" [3, 4] := by
  refine ⟨rfl, ?_⟩
  intro h
  injection h with h1 h2 h3
  exact absurd h3 (by decide)

/-- C4 amended: distinct keys are guaranteed only when the canonical JSON
serialisations differ (canonicalisation may identify distinct values, such
as arrays with equal descriptors or a set with the sorted list of its
elements).  When the serialised positional parts differ, or the serialised
keyword parts differ, the pre-hash representations differ, and equal final
keys would exhibit a SHA-256 collision on two distinct strings. -/
theorem c4_distinct_repr_distinct_key :
    (∀ (func : Option String) (args1 args2 : List PyVal) (kwargs : List (String × PyVal)),
        argsRepr args1 ≠ argsRepr args2 →
        combinedRepr func args1 kwargs ≠ combinedRepr func args2 kwargs ∧
        (generate_cache_key func args1 kwargs = generate_cache_key func args2 kwargs →
          ∃ s1 s2 : String, s1 ≠ s2 ∧ sha256OfString s1 = sha256OfString s2)) ∧
    (∀ (func : Option String) (args : List PyVal) (kw1 kw2 : List (String × PyVal)),
        kwargsRepr kw1 ≠ kwargsRepr kw2 →
        combinedRepr func args kw1 ≠ combinedRepr func args kw2 ∧
        (generate_cache_key func args kw1 = generate_cache_key func args kw2 →
          ∃ s1 s2 : String, s1 ≠ s2 ∧ sha256OfString s1 = sha256OfString s2)) := by
  constructor
  · intro func args1 args2 kwargs hne
    have hcomb : combinedRepr func args1 kwargs ≠ combinedRepr func args2 kwargs := by
      intro hEq
      apply hne
      cases func with
      | none =>
          rw [combinedRepr_none, combinedRepr_none] at hEq
          simp only [String.append_assoc] at hEq
          exact str_append_cancel_right hEq
      | some f =>
          rw [combinedRepr_some, combinedRepr_some] at hEq
          simp only [String.append_assoc] at hEq
          exact str_append_cancel_right
            (str_append_cancel_left (str_append_cancel_left hEq))
    exact ⟨hcomb, fun hk => ⟨_, _, hcomb, hk⟩⟩
  · intro func args kw1 kw2 hne
    have hcomb : combinedRepr func args kw1 ≠ combinedRepr func args kw2 := by
      intro hEq
      apply hne
      cases func with
      | none =>
          rw [combinedRepr_none, combinedRepr_none] at hEq
          simp only [String.append_assoc] at hEq
          exact str_append_cancel_left (str_append_cancel_left hEq)
      | some f =>
          rw [combinedRepr_some, combinedRepr_some] at hEq
          simp only [String.append_assoc] at hEq
          exact str_append_cancel_left (str_append_cancel_left
            (str_append_cancel_left (str_append_cancel_left hEq)))
    exact ⟨hcomb, fun hk => ⟨_, _, hcomb, hk⟩⟩

/-- C4 witness: two different int arguments have different serialised
positional parts, hence different pre-hash representations. -/
theorem c4_distinct_repr_distinct_key_witness :
    combinedRepr .none [.int 1] [] ≠ combinedRepr .none [.int 2] [] :=
  (c4_distinct_repr_distinct_key.1 .none [.int 1] [.int 2] [] (by decide)).1

/-- C10 witness: a concrete state with the key only in Redis; get returns
the value and promotes it into memory. -/
theorem c10_promotion_witness :
    (dcGet { dcInit with redisEnabled := true,
                         redis := fun k => if k = "w10" then some (.int 3) else none }
        "w10").2 = some (.int 3) ∧
    (dcGet { dcInit with redisEnabled := true,
                         redis := fun k => if k = "w10" then some (.int 3) else none }
        "w10").1.mem "w10" = some (.int 3) := by
  exact c10_promotion.1 _ "w10" (.int 3) rfl rfl rfl rfl rfl (by simp)
/-- The SHA-256 embedding reproduces the published digest of "abc",
validating the hash model against hashlib.sha256. -/
theorem sha256OfString_abc :
    sha256OfString "abc" =
      "ba7816bf8f01cfea414140de5dae2223b00361a396177a9cb410ff61f20015ad" := by decide

/-! ### C2: the coalescing invariant -/

theorem TPc.isHeld_eq_true {υ : Type} {pc : TPc υ} :
    pc.isHeld = true ↔
      (pc = .acquired ∨ pc = .ready ∨ pc = .computed ∨ pc = .stored) := by
  cases pc <;> simp [TPc.isHeld]

theorem TPc.isComputed_eq_true {υ : Type} {pc : TPc υ} :
    pc.isComputed = true ↔ pc = .computed := by
  cases pc <;> simp [TPc.isComputed]

theorem TPc.isDone_eq_true {υ : Type} {pc : TPc υ} :
    pc.isDone = true ↔ ∃ r, pc = .done r := by
  cases pc <;> simp [TPc.isDone]

theorem exComp_update_iff {n : Nat} {κ υ : Type} [DecidableEq κ] (keyOf : Fin n → κ)
    (pcs : Fin n → TPc υ) (t : Fin n) (newpc : TPc υ) (hnew : newpc.isComputed = false)
    (hold : (pcs t).isComputed = false) (k : κ) :
    (∃ i, keyOf i = k ∧ (if i = t then newpc else pcs i).isComputed = true) ↔
      ∃ i, keyOf i = k ∧ (pcs i).isComputed = true := by
  constructor
  · rintro ⟨i, hk, hc⟩
    by_cases hit : i = t
    · subst hit
      rw [if_pos rfl, hnew] at hc
      exact absurd hc (by simp)
    · rw [if_neg hit] at hc
      exact ⟨i, hk, hc⟩
  · rintro ⟨i, hk, hc⟩
    by_cases hit : i = t
    · subst hit
      rw [hold] at hc
      exact absurd hc (by simp)
    · exact ⟨i, hk, by rw [if_neg hit]; exact hc⟩

theorem coInv_init {n : Nat} {κ υ : Type} [DecidableEq κ] (keyOf : Fin n → κ)
    (resOf : κ → Option υ) : CoInv keyOf resOf (initCo n κ υ) := by
  refine ⟨?_, ?_, ?_, ?_, ?_, ?_, ?_, ?_⟩ <;>
    simp [initCo, TPc.isHeld, TPc.isComputed]

theorem coInv_step {n : Nat} {κ υ : Type} [DecidableEq κ] {keyOf : Fin n → κ}
    {resOf : κ → Option υ} (hres : ∀ k, resOf k ≠ none) {s : CoState n κ υ}
    (hI : CoInv keyOf resOf s) (t : Fin n) : CoInv keyOf resOf (step keyOf resOf s t) := by
  obtain ⟨I1, I2, I3, I4, I5, I6, I7, I8⟩ := hI
  cases hpc : s.pcs t with
  | start =>
    cases hc : s.cache (keyOf t) with
    | some v =>
      simp only [step, hpc, hc]
      refine ⟨?_, ?_, ?_, I4, ?_, ?_, ?_, ?_⟩
      · intro i hi
        dsimp only at hi ⊢
        by_cases hit : i = t
        · subst hit
          rw [if_pos rfl] at hi
          exact absurd hi (by simp [TPc.isHeld])
        · rw [if_neg hit] at hi
          exact I1 i hi
      · intro k i hl
        obtain ⟨hk, hheld⟩ := I2 k i hl
        refine ⟨hk, ?_⟩
        dsimp only
        by_cases hit : i = t
        · subst hit
          rw [hpc] at hheld
          exact absurd hheld (by simp [TPc.isHeld])
        · rw [if_neg hit]
          exact hheld
      · intro i hi
        dsimp only at hi ⊢
        by_cases hit : i = t
        · subst hit
          rw [if_pos rfl] at hi
          rcases hi with hi | hi <;> exact absurd hi (by simp)
        · rw [if_neg hit] at hi
          exact I3 i hi
      · intro k
        dsimp only
        rw [I5 k]
        exact congrArg _ (if_congr (exComp_update_iff keyOf s.pcs t (TPc.done (some v)) (by simp [TPc.isComputed])
          (by rw [hpc]; simp [TPc.isComputed]) k).symm rfl rfl)
      · intro i r hi
        dsimp only at hi
        by_cases hit : i = t
        · subst hit
          rw [if_pos rfl] at hi
          cases hi
          rcases I4 (keyOf i) with h4 | h4
          · rw [h4] at hc
            cases hc
          · rw [hc] at h4
            exact h4
        · rw [if_neg hit] at hi
          exact I6 i r hi
      · intro i r hi
        dsimp only at hi ⊢
        by_cases hit : i = t
        · subst hit
          rw [hc]
          rfl
        · rw [if_neg hit] at hi
          exact I7 i r hi
      · intro i hi
        dsimp only at hi ⊢
        by_cases hit : i = t
        · subst hit
          rw [if_pos rfl] at hi
          cases hi
        · rw [if_neg hit] at hi
          exact I8 i hi
    | none =>
      simp only [step, hpc, hc]
      refine ⟨?_, ?_, ?_, I4, ?_, ?_, ?_, ?_⟩
      · intro i hi
        dsimp only at hi ⊢
        by_cases hit : i = t
        · subst hit
          rw [if_pos rfl] at hi
          exact absurd hi (by simp [TPc.isHeld])
        · rw [if_neg hit] at hi
          exact I1 i hi
      · intro k i hl
        obtain ⟨hk, hheld⟩ := I2 k i hl
        refine ⟨hk, ?_⟩
        dsimp only
        by_cases hit : i = t
        · subst hit
          rw [hpc] at hheld
          exact absurd hheld (by simp [TPc.isHeld])
        · rw [if_neg hit]
          exact hheld
      · intro i hi
        dsimp only at hi ⊢
        by_cases hit : i = t
        · subst hit
          rw [if_pos rfl] at hi
          rcases hi with hi | hi <;> exact absurd hi (by simp)
        · rw [if_neg hit] at hi
          exact I3 i hi
      · intro k
        dsimp only
        rw [I5 k]
        exact congrArg _ (if_congr (exComp_update_iff keyOf s.pcs t TPc.missed (by simp [TPc.isComputed])
          (by rw [hpc]; simp [TPc.isComputed]) k).symm rfl rfl)
      · intro i r hi
        dsimp only at hi
        by_cases hit : i = t
        · subst hit
          rw [if_pos rfl] at hi
          cases hi
        · rw [if_neg hit] at hi
          exact I6 i r hi
      · intro i r hi
        dsimp only at hi ⊢
        by_cases hit : i = t
        · subst hit
          rw [if_pos rfl] at hi
          cases hi
        · rw [if_neg hit] at hi
          exact I7 i r hi
      · intro i hi
        dsimp only at hi ⊢
        by_cases hit : i = t
        · subst hit
          rw [if_pos rfl] at hi
          cases hi
        · rw [if_neg hit] at hi
          exact I8 i hi
  | missed =>
    cases hl : s.lock (keyOf t) with
    | none =>
      simp only [step, hpc, hl]
      refine ⟨?_, ?_, ?_, I4, ?_, ?_, ?_, ?_⟩
      · intro i hi
        dsimp only at hi ⊢
        by_cases hit : i = t
        · subst hit
          rw [if_pos rfl]
        · rw [if_neg hit] at hi
          have hlock := I1 i hi
          by_cases hkk : keyOf i = keyOf t
          · rw [hkk, hl] at hlock
            cases hlock
          · rw [if_neg hkk]
            exact hlock
      · intro k i hlk
        dsimp only at hlk ⊢
        by_cases hkk : k = keyOf t
        · subst hkk
          rw [if_pos rfl] at hlk
          cases hlk
          refine ⟨rfl, ?_⟩
          rw [if_pos rfl]
          rfl
        · rw [if_neg hkk] at hlk
          obtain ⟨hk, hheld⟩ := I2 k i hlk
          refine ⟨hk, ?_⟩
          by_cases hit : i = t
          · subst hit
            rw [hpc] at hheld
            exact absurd hheld (by simp [TPc.isHeld])
          · rw [if_neg hit]
            exact hheld
      · intro i hi
        dsimp only at hi ⊢
        by_cases hit : i = t
        · subst hit
          rw [if_pos rfl] at hi
          rcases hi with hi | hi <;> exact absurd hi (by simp)
        · rw [if_neg hit] at hi
          exact I3 i hi
      · intro k
        dsimp only
        rw [I5 k]
        exact congrArg _ (if_congr (exComp_update_iff keyOf s.pcs t TPc.acquired (by simp [TPc.isComputed])
          (by rw [hpc]; simp [TPc.isComputed]) k).symm rfl rfl)
      · intro i r hi
        dsimp only at hi
        by_cases hit : i = t
        · subst hit
          rw [if_pos rfl] at hi
          cases hi
        · rw [if_neg hit] at hi
          exact I6 i r hi
      · intro i r hi
        dsimp only at hi ⊢
        by_cases hit : i = t
        · subst hit
          rw [if_pos rfl] at hi
          cases hi
        · rw [if_neg hit] at hi
          exact I7 i r hi
      · intro i hi
        dsimp only at hi ⊢
        by_cases hit : i = t
        · subst hit
          rw [if_pos rfl] at hi
          cases hi
        · rw [if_neg hit] at hi
          exact I8 i hi
    | some j =>
      simp only [step, hpc, hl]
      exact ⟨I1, I2, I3, I4, I5, I6, I7, I8⟩
  | acquired =>
    cases hc : s.cache (keyOf t) with
    | some v =>
      simp only [step, hpc, hc]
      have hlockt : s.lock (keyOf t) = some t := I1 t (by rw [hpc]; rfl)
      refine ⟨?_, ?_, ?_, I4, ?_, ?_, ?_, ?_⟩
      · intro i hi
        dsimp only at hi ⊢
        by_cases hit : i = t
        · subst hit
          rw [if_pos rfl] at hi
          exact absurd hi (by simp [TPc.isHeld])
        · rw [if_neg hit] at hi
          have hlock := I1 i hi
          by_cases hkk : keyOf i = keyOf t
          · rw [hkk, hlockt] at hlock
            cases hlock
            exact absurd rfl hit
          · rw [if_neg hkk]
            exact hlock
      · intro k i hlk
        dsimp only at hlk ⊢
        by_cases hkk : k = keyOf t
        · subst hkk
          rw [if_pos rfl] at hlk
          cases hlk
        · rw [if_neg hkk] at hlk
          obtain ⟨hk, hheld⟩ := I2 k i hlk
          refine ⟨hk, ?_⟩
          by_cases hit : i = t
          · subst hit
            exact absurd hk.symm hkk
          · rw [if_neg hit]
            exact hheld
      · intro i hi
        dsimp only at hi ⊢
        by_cases hit : i = t
        · subst hit
          rw [if_pos rfl] at hi
          rcases hi with hi | hi <;> exact absurd hi (by simp)
        · rw [if_neg hit] at hi
          exact I3 i hi
      · intro k
        dsimp only
        rw [I5 k]
        exact congrArg _ (if_congr (exComp_update_iff keyOf s.pcs t (TPc.done (some v)) (by simp [TPc.isComputed])
          (by rw [hpc]; simp [TPc.isComputed]) k).symm rfl rfl)
      · intro i r hi
        dsimp only at hi
        by_cases hit : i = t
        · subst hit
          rw [if_pos rfl] at hi
          cases hi
          rcases I4 (keyOf i) with h4 | h4
          · rw [h4] at hc
            cases hc
          · rw [hc] at h4
            exact h4
        · rw [if_neg hit] at hi
          exact I6 i r hi
      · intro i r hi
        dsimp only at hi ⊢
        by_cases hit : i = t
        · subst hit
          rw [hc]
          rfl
        · rw [if_neg hit] at hi
          exact I7 i r hi
      · intro i hi
        dsimp only at hi ⊢
        by_cases hit : i = t
        · subst hit
          rw [if_pos rfl] at hi
          cases hi
        · rw [if_neg hit] at hi
          exact I8 i hi
    | none =>
      simp only [step, hpc, hc]
      refine ⟨?_, ?_, ?_, I4, ?_, ?_, ?_, ?_⟩
      · intro i hi
        dsimp only at hi ⊢
        by_cases hit : i = t
        · subst hit
          exact I1 i (by rw [hpc]; rfl)
        · rw [if_neg hit] at hi
          exact I1 i hi
      · intro k i hlk
        obtain ⟨hk, hheld⟩ := I2 k i hlk
        refine ⟨hk, ?_⟩
        dsimp only
        by_cases hit : i = t
        · subst hit
          rw [if_pos rfl]
          rfl
        · rw [if_neg hit]
          exact hheld
      · intro i hi
        dsimp only at hi ⊢
        by_cases hit : i = t
        · subst hit
          exact hc
        · rw [if_neg hit] at hi
          exact I3 i hi
      · intro k
        dsimp only
        rw [I5 k]
        exact congrArg _ (if_congr (exComp_update_iff keyOf s.pcs t TPc.ready (by simp [TPc.isComputed])
          (by rw [hpc]; simp [TPc.isComputed]) k).symm rfl rfl)
      · intro i r hi
        dsimp only at hi
        by_cases hit : i = t
        · subst hit
          rw [if_pos rfl] at hi
          cases hi
        · rw [if_neg hit] at hi
          exact I6 i r hi
      · intro i r hi
        dsimp only at hi ⊢
        by_cases hit : i = t
        · subst hit
          rw [if_pos rfl] at hi
          cases hi
        · rw [if_neg hit] at hi
          exact I7 i r hi
      · intro i hi
        dsimp only at hi ⊢
        by_cases hit : i = t
        · subst hit
          rw [if_pos rfl] at hi
          cases hi
        · rw [if_neg hit] at hi
          exact I8 i hi
  | ready =>
    simp only [step, hpc]
    have hlockt : s.lock (keyOf t) = some t := I1 t (by rw [hpc]; rfl)
    have hcache : s.cache (keyOf t) = none := I3 t (Or.inl hpc)
    refine ⟨?_, ?_, ?_, I4, ?_, ?_, ?_, ?_⟩
    · intro i hi
      dsimp only at hi ⊢
      by_cases hit : i = t
      · subst hit
        exact hlockt
      · rw [if_neg hit] at hi
        exact I1 i hi
    · intro k i hlk
      obtain ⟨hk, hheld⟩ := I2 k i hlk
      refine ⟨hk, ?_⟩
      dsimp only
      by_cases hit : i = t
      · subst hit
        rw [if_pos rfl]
        rfl
      · rw [if_neg hit]
        exact hheld
    · intro i hi
      dsimp only at hi ⊢
      by_cases hit : i = t
      · subst hit
        exact hcache
      · rw [if_neg hit] at hi
        exact I3 i hi
    · intro k
      dsimp only
      by_cases hkk : k = keyOf t
      · subst hkk
        rw [if_pos rfl, I5 (keyOf t)]
        have hnoold : ¬ ∃ i, keyOf i = keyOf t ∧ (s.pcs i).isComputed = true := by
          rintro ⟨j, hjk, hjc⟩
          have hjheld : (s.pcs j).isHeld = true := by
            rw [TPc.isComputed_eq_true.mp hjc]
            rfl
          have h0 := I1 j hjheld
          rw [hjk, hlockt] at h0
          cases h0
          rw [hpc] at hjc
          exact absurd hjc (by simp [TPc.isComputed])
        have hnew : ∃ i, keyOf i = keyOf t ∧
            (if i = t then TPc.computed else s.pcs i).isComputed = true := by
          refine ⟨t, rfl, ?_⟩
          rw [if_pos rfl]
          rfl
        rw [if_neg hnoold, if_pos hnew, hcache]
      · rw [if_neg hkk, I5 k]
        have hiff : (∃ i, keyOf i = k ∧
            (if i = t then TPc.computed else s.pcs i).isComputed = true) ↔
            ∃ i, keyOf i = k ∧ (s.pcs i).isComputed = true := by
          constructor
          · rintro ⟨i, hk2, hc2⟩
            by_cases hit : i = t
            · subst hit
              exact absurd hk2.symm hkk
            · rw [if_neg hit] at hc2
              exact ⟨i, hk2, hc2⟩
          · rintro ⟨i, hk2, hc2⟩
            by_cases hit : i = t
            · subst hit
              exact absurd hk2.symm hkk
            · exact ⟨i, hk2, by rw [if_neg hit]; exact hc2⟩
        exact congrArg _ (if_congr hiff.symm rfl rfl)
    · intro i r hi
      dsimp only at hi
      by_cases hit : i = t
      · subst hit
        rw [if_pos rfl] at hi
        cases hi
      · rw [if_neg hit] at hi
        exact I6 i r hi
    · intro i r hi
      dsimp only at hi ⊢
      by_cases hit : i = t
      · subst hit
        rw [if_pos rfl] at hi
        cases hi
      · rw [if_neg hit] at hi
        exact I7 i r hi
    · intro i hi
      dsimp only at hi ⊢
      by_cases hit : i = t
      · subst hit
        rw [if_pos rfl] at hi
        cases hi
      · rw [if_neg hit] at hi
        exact I8 i hi
  | computed =>
    cases hr : resOf (keyOf t) with
    | none => exact absurd hr (hres (keyOf t))
    | some v =>
      simp only [step, hpc, hr]
      have hlockt : s.lock (keyOf t) = some t := I1 t (by rw [hpc]; rfl)
      have hcache : s.cache (keyOf t) = none := I3 t (Or.inr hpc)
      refine ⟨?_, ?_, ?_, ?_, ?_, ?_, ?_, ?_⟩
      · intro i hi
        dsimp only at hi ⊢
        by_cases hit : i = t
        · subst hit
          exact hlockt
        · rw [if_neg hit] at hi
          exact I1 i hi
      · intro k i hlk
        obtain ⟨hk, hheld⟩ := I2 k i hlk
        refine ⟨hk, ?_⟩
        dsimp only
        by_cases hit : i = t
        · subst hit
          rw [if_pos rfl]
          rfl
        · rw [if_neg hit]
          exact hheld
      · intro i hi
        dsimp only at hi ⊢
        by_cases hit : i = t
        · subst hit
          rw [if_pos rfl] at hi
          rcases hi with hi | hi <;> exact absurd hi (by simp)
        · rw [if_neg hit] at hi
          have hik : keyOf i ≠ keyOf t := by
            intro hkk
            have hiheld : (s.pcs i).isHeld = true := by
              rcases hi with hi | hi <;> rw [hi] <;> rfl
            have := I1 i hiheld
            rw [hkk, hlockt] at this
            cases this
            exact hit rfl
          rw [if_neg hik]
          exact I3 i hi
      · intro k
        dsimp only
        by_cases hkk : k = keyOf t
        · subst hkk
          rw [if_pos rfl]
          right
          rw [hr]
        · rw [if_neg hkk]
          exact I4 k
      · intro k
        dsimp only
        by_cases hkk : k = keyOf t
        · subst hkk
          rw [if_pos rfl, I5 (keyOf t), hcache]
          have hnonew : ¬ ∃ i, keyOf i = keyOf t ∧
              (if i = t then TPc.stored else s.pcs i).isComputed = true := by
            rintro ⟨j, hjk, hjc⟩
            by_cases hjt : j = t
            · subst hjt
              rw [if_pos rfl] at hjc
              exact absurd hjc (by simp [TPc.isComputed])
            · rw [if_neg hjt] at hjc
              have hjheld : (s.pcs j).isHeld = true := by
                rw [TPc.isComputed_eq_true.mp hjc]
                rfl
              have h0 := I1 j hjheld
              rw [hjk, hlockt] at h0
              cases h0
              exact hjt rfl
          have hold2 : ∃ i, keyOf i = keyOf t ∧ (s.pcs i).isComputed = true :=
            ⟨t, rfl, by rw [hpc]; rfl⟩
          rw [if_pos hold2, if_neg hnonew]
          simp
        · rw [if_neg hkk, I5 k]
          have hiff : (∃ i, keyOf i = k ∧
              (if i = t then TPc.stored else s.pcs i).isComputed = true) ↔
              ∃ i, keyOf i = k ∧ (s.pcs i).isComputed = true := by
            constructor
            · rintro ⟨i, hk2, hc2⟩
              by_cases hit : i = t
              · subst hit
                exact absurd hk2.symm hkk
              · rw [if_neg hit] at hc2
                exact ⟨i, hk2, hc2⟩
            · rintro ⟨i, hk2, hc2⟩
              by_cases hit : i = t
              · subst hit
                exact absurd hk2.symm hkk
              · exact ⟨i, hk2, by rw [if_neg hit]; exact hc2⟩
          exact congrArg _ (if_congr hiff.symm rfl rfl)
      · intro i r hi
        dsimp only at hi
        by_cases hit : i = t
        · subst hit
          rw [if_pos rfl] at hi
          cases hi
        · rw [if_neg hit] at hi
          exact I6 i r hi
      · intro i r hi
        dsimp only at hi ⊢
        by_cases hit : i = t
        · subst hit
          rw [if_pos rfl] at hi
          cases hi
        · rw [if_neg hit] at hi
          by_cases hkk : keyOf i = keyOf t
          · rw [hkk, if_pos rfl]
            rfl
          · rw [if_neg hkk]
            exact I7 i r hi
      · intro i hi
        dsimp only at hi ⊢
        by_cases hit : i = t
        · subst hit
          rw [if_pos rfl]
          rfl
        · rw [if_neg hit] at hi
          by_cases hkk : keyOf i = keyOf t
          · rw [hkk, if_pos rfl]
            rfl
          · rw [if_neg hkk]
            exact I8 i hi
  | stored =>
    simp only [step, hpc]
    have hlockt : s.lock (keyOf t) = some t := I1 t (by rw [hpc]; rfl)
    have hsome : (s.cache (keyOf t)).isSome = true := I8 t hpc
    refine ⟨?_, ?_, ?_, I4, ?_, ?_, ?_, ?_⟩
    · intro i hi
      dsimp only at hi ⊢
      by_cases hit : i = t
      · subst hit
        rw [if_pos rfl] at hi
        exact absurd hi (by simp [TPc.isHeld])
      · rw [if_neg hit] at hi
        have hlock := I1 i hi
        by_cases hkk : keyOf i = keyOf t
        · rw [hkk, hlockt] at hlock
          cases hlock
          exact absurd rfl hit
        · rw [if_neg hkk]
          exact hlock
    · intro k i hlk
      dsimp only at hlk ⊢
      by_cases hkk : k = keyOf t
      · subst hkk
        rw [if_pos rfl] at hlk
        cases hlk
      · rw [if_neg hkk] at hlk
        obtain ⟨hk, hheld⟩ := I2 k i hlk
        refine ⟨hk, ?_⟩
        by_cases hit : i = t
        · subst hit
          exact absurd hk.symm hkk
        · rw [if_neg hit]
          exact hheld
    · intro i hi
      dsimp only at hi ⊢
      by_cases hit : i = t
      · subst hit
        rw [if_pos rfl] at hi
        rcases hi with hi | hi <;> exact absurd hi (by simp)
      · rw [if_neg hit] at hi
        exact I3 i hi
    · intro k
      dsimp only
      rw [I5 k]
      exact congrArg _ (if_congr (exComp_update_iff keyOf s.pcs t (TPc.done (resOf (keyOf t))) (by simp [TPc.isComputed])
        (by rw [hpc]; simp [TPc.isComputed]) k).symm rfl rfl)
    · intro i r hi
      dsimp only at hi
      by_cases hit : i = t
      · subst hit
        rw [if_pos rfl] at hi
        cases hi
        rfl
      · rw [if_neg hit] at hi
        exact I6 i r hi
    · intro i r hi
      dsimp only at hi ⊢
      by_cases hit : i = t
      · subst hit
        exact hsome
      · rw [if_neg hit] at hi
        exact I7 i r hi
    · intro i hi
      dsimp only at hi ⊢
      by_cases hit : i = t
      · subst hit
        rw [if_pos rfl] at hi
        cases hi
      · rw [if_neg hit] at hi
        exact I8 i hi
  | done r =>
    simp only [step, hpc]
    exact ⟨I1, I2, I3, I4, I5, I6, I7, I8⟩

theorem coInv_run {n : Nat} {κ υ : Type} [DecidableEq κ] {keyOf : Fin n → κ}
    {resOf : κ → Option υ} (hres : ∀ k, resOf k ≠ none) (sched : List (Fin n)) :
    ∀ s : CoState n κ υ, CoInv keyOf resOf s → CoInv keyOf resOf (run keyOf resOf sched s) := by
  induction sched with
  | nil => exact fun s h => h
  | cons a l ih => exact fun s h => ih (step keyOf resOf s a) (coInv_step hres h a)

/-- C2 amended: for a wrapped function whose result is never None, under
every interleaving of any number of concurrent callers, the function runs
at most once per key; when all callers have finished it has run exactly
once per requested key and every caller of that key received the function's
value; and a caller that cannot make progress is always waiting on the lock
of its own key, held by another caller of the same key - callers for
different keys never block each other. -/
theorem c2_coalescing {n : Nat} {κ υ : Type} [DecidableEq κ] (keyOf : Fin n → κ)
    (resOf : κ → Option υ) (hres : ∀ k, resOf k ≠ none) (sched : List (Fin n)) :
    (∀ k, (run keyOf resOf sched (initCo n κ υ)).execs k ≤ 1) ∧
    ((∀ j, ((run keyOf resOf sched (initCo n κ υ)).pcs j).isDone = true) →
      (∀ i, (run keyOf resOf sched (initCo n κ υ)).pcs i = .done (resOf (keyOf i))) ∧
      (∀ i, (run keyOf resOf sched (initCo n κ υ)).execs (keyOf i) = 1)) ∧
    (∀ i, step keyOf resOf (run keyOf resOf sched (initCo n κ υ)) i =
          run keyOf resOf sched (initCo n κ υ) →
        ((run keyOf resOf sched (initCo n κ υ)).pcs i).isDone = false →
        ∃ j, j ≠ i ∧ keyOf j = keyOf i ∧
          (run keyOf resOf sched (initCo n κ υ)).lock (keyOf i) = some j) := by
  obtain ⟨I1, I2, I3, I4, I5, I6, I7, I8⟩ :=
    coInv_run hres sched (initCo n κ υ) (coInv_init keyOf resOf)
  set s := run keyOf resOf sched (initCo n κ υ) with hs
  refine ⟨?_, ?_, ?_⟩
  · intro k
    rw [I5 k]
    by_cases hex : ∃ i, keyOf i = k ∧ (s.pcs i).isComputed = true
    · rcases hex with ⟨j, hjk, hjc⟩
      have hcache := I3 j (Or.inr (TPc.isComputed_eq_true.mp hjc))
      rw [hjk] at hcache
      have hex2 : ∃ i, keyOf i = k ∧ (s.pcs i).isComputed = true := ⟨j, hjk, hjc⟩
      rw [hcache, if_pos hex2]
      simp
    · rw [if_neg hex]
      cases h : (s.cache k).isSome <;> simp [h]
  · intro hall
    constructor
    · intro i
      rcases TPc.isDone_eq_true.mp (hall i) with ⟨r, hr⟩
      rw [hr, I6 i r hr]
    · intro i
      rw [I5 (keyOf i)]
      have hnocomp : ¬ ∃ j, keyOf j = keyOf i ∧ (s.pcs j).isComputed = true := by
        rintro ⟨j, _, hjc⟩
        rcases TPc.isDone_eq_true.mp (hall j) with ⟨r, hr⟩
        rw [hr] at hjc
        exact absurd hjc (by simp [TPc.isComputed])
      rcases TPc.isDone_eq_true.mp (hall i) with ⟨r, hr⟩
      rw [if_neg hnocomp, I7 i r hr]
      simp
  · intro i hstep hnd
    cases hpc : s.pcs i with
    | start =>
      exfalso
      have h := congrArg (fun st => st.pcs i) hstep
      simp only [step, hpc] at h
      cases hc : s.cache (keyOf i) <;> simp [hc, hpc] at h
    | missed =>
      cases hl : s.lock (keyOf i) with
      | some j =>
        obtain ⟨hk, hheld⟩ := I2 (keyOf i) j hl
        refine ⟨j, ?_, hk, rfl⟩
        intro hji
        rw [hji, hpc] at hheld
        exact absurd hheld (by simp [TPc.isHeld])
      | none =>
        exfalso
        have h := congrArg (fun st => st.pcs i) hstep
        simp [step, hpc, hl] at h
    | acquired =>
      exfalso
      have h := congrArg (fun st => st.pcs i) hstep
      simp only [step, hpc] at h
      cases hc : s.cache (keyOf i) <;> simp [hc, hpc] at h
    | ready =>
      exfalso
      have h := congrArg (fun st => st.pcs i) hstep
      simp [step, hpc] at h
    | computed =>
      exfalso
      cases hr : resOf (keyOf i) with
      | none => exact hres (keyOf i) hr
      | some v =>
        have h := congrArg (fun st => st.pcs i) hstep
        simp [step, hpc, hr] at h
    | stored =>
      exfalso
      have h := congrArg (fun st => st.pcs i) hstep
      simp [step, hpc] at h
    | done r =>
      rw [hpc] at hnd
      exact absurd hnd (by simp [TPc.isDone])

/-- C2 counterexample input and divergence: the wrapped slow function
returns None.  Two concurrent callers of the same key serialize on the
per-key lock, but because None is never stored the second caller re-checks,
misses, and executes the function again: in the schedule that runs the
first caller to completion and then the second, both callers finish and the
execution counter of the key is 2, refuting "the underlying function
executes exactly once". -/
theorem c2_none_result_two_executions :
    (run (fun _ : Fin 2 => (0 : Nat)) (fun _ => (none : Option Nat))
        [0, 0, 0, 0, 0, 0, 1, 1, 1, 1, 1, 1] (initCo 2 Nat Nat)).execs 0 = 2 ∧
    ∀ j : Fin 2, ((run (fun _ : Fin 2 => (0 : Nat)) (fun _ => (none : Option Nat))
        [0, 0, 0, 0, 0, 0, 1, 1, 1, 1, 1, 1] (initCo 2 Nat Nat)).pcs j).isDone = true := by
  exact ⟨by decide, by decide⟩

/-- C2 witness: two callers of one key with result 5; the schedule runs
the first to completion, then the second hits the cache.  The amended
theorem yields one execution and the done value for the second caller. -/
theorem c2_coalescing_witness :
    (run (fun _ : Fin 2 => (0 : Nat)) (fun _ => (some 5 : Option Nat))
        [0, 0, 0, 0, 0, 0, 1] (initCo 2 Nat Nat)).execs 0 = 1 ∧
    (run (fun _ : Fin 2 => (0 : Nat)) (fun _ => (some 5 : Option Nat))
        [0, 0, 0, 0, 0, 0, 1] (initCo 2 Nat Nat)).pcs 1 = TPc.done (some 5) := by
  have h := c2_coalescing (fun _ : Fin 2 => (0 : Nat)) (fun _ => (some 5 : Option Nat))
    (fun k => by simp) [0, 0, 0, 0, 0, 0, 1]
  exact ⟨(h.2.1 (by decide)).2 0, (h.2.1 (by decide)).1 1⟩

end OkFds
